import Mathlib

/-!
# Verification of the mazebot shortest-path search (src/main.rs)

Shallow embedding of the pathfinding core of `src/main.rs`:
the data structures `Maze`, `Pair`, `Node`, the heuristic
`calculate_shortest_possible`, and the A* search `solve_maze`.

Machine integers (`i32`) are modelled as unbounded `Int`; the
`BinaryHeap` is modelled as a list with a deterministic
extract-max operation (`popMax`); `HashMap<usize, Node>` is a
function `Nat → Option Node`; `HashSet<usize>` is a `Finset Nat`.
The two loops of `solve_maze` are given explicit fuel; running out
of fuel yields `none` and a `panic!`-equivalent (failed lookup,
out-of-range index) yields `some (.error ())`, so termination and
panic-freedom are provable statements rather than assumptions.
-/

namespace Mazebot

/-- The maze description (struct `Maze` in src/main.rs).  Coordinates are
`(x, y)` pairs; `map` is the grid of characters, `'X'` marking walls. -/
structure Maze where
  name : String
  maze_path : String
  starting_position : Int × Int
  ending_position : Int × Int
  map : List (List Char)

/-- Priority-queue entry (struct `Pair`): `key` is the heap priority,
`value` a node id.  Its `Ord` instance in the source compares keys only. -/
structure Pair where
  key : Int
  value : Nat
deriving DecidableEq

/-- Per-cell search state (struct `Node`). -/
structure Node where
  pos : Int × Int
  x : Int
  y : Int
  g : Int
  h : Int
  best_pred : Nat
  direction : Char
deriving DecidableEq

/-- Source `Node::from_pos`: fresh node with sentinel `g = -1`, `h = -1`. -/
def Node.from_pos (pos : Int × Int) (x y : Int) : Node :=
  ⟨pos, x, y, -1, -1, 0, '@'⟩

/-- Source `Node::new`: rebuild the position from a linear id. -/
def Node.new (i x y : Int) : Node :=
  Node.from_pos (i % x, i / x) x y

/-- Source `Node::id`: linear cell id `x * pos.y + pos.x` (cast `as usize`). -/
def Node.id (n : Node) : Nat :=
  (n.x * n.pos.2 + n.pos.1).toNat

/-- Source `Node::f`: heap sort key; negated so that the max-heap dequeues the
smallest `g + h` first. -/
def Node.f (n : Node) : Int :=
  -(n.g + n.h)

/-- Source `calculate_shortest_possible`: Manhattan distance between two cells. -/
def calculate_shortest_possible (s t : Int × Int) : Int :=
  |s.1 - t.1| + |s.2 - t.2|

/-- Double index into the grid: `map[py][px]`, as an `Option`. -/
def gridGet (map : List (List Char)) (px py : Int) : Option Char :=
  (map.get? py.toNat).bind (fun row => row.get? px.toNat)

/-- Model of `BinaryHeap::pop`: remove a maximal-key entry (the first of the
maximal entries, fixing a deterministic tie-break). -/
def popMax : List Pair → Option (Pair × List Pair)
  | [] => none
  | p :: rest =>
    match popMax rest with
    | none => some (p, [])
    | some (q, rest2) => if q.key ≤ p.key then some (p, rest) else some (q, p :: rest2)

/-- The search state local to one `solve_maze` invocation: the frontier
(`open_list`), the `closed_list`, and the node table. -/
structure SState where
  heap : List Pair
  closed : Finset Nat
  nodes : Nat → Option Node

/-- Point update of the node table (`HashMap::insert` / entry mutation). -/
def setNode (f : Nat → Option Node) (i : Nat) (v : Node) : Nat → Option Node :=
  fun j => if j = i then some v else f j

/-- The fixed neighbor-expansion order with the recorded direction labels
and the deltas used by the search, exactly as in the source:
`[('N', [0,1]), ('W', [1,0]), ('E', [-1,0]), ('S', [0,-1])]`. -/
def dirList : List (Char × Int × Int) :=
  [('N', (0, 1)), ('W', (1, 0)), ('E', (-1, 0)), ('S', (0, -1))]

/-- The per-invocation context: the grid, its dimensions, the search root
(the maze's `ending_position`) and the search target (the maze's
`starting_position`) — the search runs backwards. -/
structure Ctx where
  map : List (List Char)
  x : Int
  y : Int
  rootPos : Int × Int
  targetPos : Int × Int

/-- One neighbor step of the expansion loop body of `solve_maze`:
bounds check, wall check, `nodes.entry(..).or_insert_with(..)`,
closed check, and relaxation with a push of the new `f` key.
A failed grid row lookup (possible only for jagged grids) is a panic. -/
def processDir (c : Ctx) (cur : Node) (st : SState) (d : Char × Int × Int) :
    Except Unit SState :=
  let nx := cur.pos.1 + d.2.1
  let ny := cur.pos.2 + d.2.2
  if nx ≥ c.x ∨ nx < 0 ∨ ny ≥ c.y ∨ ny < 0 then .ok st
  else
    match gridGet c.map nx ny with
    | none => .error ()
    | some cell =>
      if cell = 'X' then .ok st
      else
        let nidx := (nx + ny * c.x).toNat
        let nb := match st.nodes nidx with
          | some nd => nd
          | none => Node.new (Int.ofNat nidx) c.x c.y
        if nidx ∈ st.closed then .ok { st with nodes := setNode st.nodes nidx nb }
        else if nb.g > cur.g + 1 ∨ nb.g < 0 then
          let upd : Node :=
            { nb with best_pred := cur.id, direction := d.1, g := cur.g + 1,
                      h := calculate_shortest_possible c.targetPos nb.pos }
          .ok { heap := Pair.mk upd.f nidx :: st.heap, closed := st.closed,
                nodes := setNode st.nodes nidx upd }
        else .ok { st with nodes := setNode st.nodes nidx nb }

/-- Expansion of the four cardinal neighbors in the fixed source order. -/
def expandList (c : Ctx) (cur : Node) :
    SState → List (Char × Int × Int) → Except Unit SState
  | st, [] => .ok st
  | st, d :: ds =>
    match processDir c cur st d with
    | .error e => .error e
    | .ok st2 => expandList c cur st2 ds

/-- Path reconstruction (`while b.pos != start.pos { path.push(..); .. }`),
with fuel; a missing predecessor is a panic. -/
def reconstruct (nodes : Nat → Option Node) (rootPos : Int × Int) :
    Nat → Node → List Char → Option (Except Unit (List Char))
  | 0, _, _ => none
  | fuel + 1, b, path =>
    if b.pos = rootPos then some (.ok path)
    else
      match nodes b.best_pred with
      | none => some (.error ())
      | some b2 => reconstruct nodes rootPos fuel b2 (path ++ [b.direction])

/-- Result of one iteration of the main `while !open_list.is_empty()` loop. -/
inductive StepRes where
  | next (st : SState)
  | stop (r : Option (Except Unit (List Char)))

/-- One iteration of the main loop of `solve_maze`: pop, stale-entry skip,
target test with reconstruction, or close-and-expand. -/
def loopStep (c : Ctx) (st : SState) : StepRes :=
  match popMax st.heap with
  | none => .stop (some (.ok []))
  | some (pr, rest) =>
    if pr.value ∈ st.closed then .next { st with heap := rest }
    else
      match st.nodes pr.value with
      | none => .stop (some (.error ()))
      | some cur =>
        if cur.pos = c.targetPos then
          .stop (reconstruct st.nodes c.rootPos (cur.g + 2).toNat cur [])
        else
          match expandList c cur
              { heap := rest, closed := insert pr.value st.closed,
                nodes := st.nodes } dirList with
          | .error _ => .stop (some (.error ()))
          | .ok st2 => .next st2

/-- The state after one loop iteration, when the iteration continues. -/
def stepNext (c : Ctx) (st : SState) : Option SState :=
  match loopStep c st with
  | .next st2 => some st2
  | .stop _ => none

/-- The fueled main loop. -/
def solveAux (c : Ctx) : Nat → SState → Option (Except Unit (List Char))
  | 0, _ => none
  | fuel + 1, st =>
    match loopStep c st with
    | .next st2 => solveAux c fuel st2
    | .stop r => r

/-- The initial state of `solve_maze`: the root node (placed at the maze's
`ending_position`) inserted into the node table and pushed with key
`start.f()`. -/
def initState (c : Ctx) : SState :=
  let start := Node.from_pos c.rootPos c.x c.y
  { heap := [Pair.mk start.f start.id], closed := ∅,
    nodes := setNode (fun _ => none) start.id start }

/-- Fuel that provably dominates the iteration count of the main loop. -/
def searchFuel (c : Ctx) : Nat := 5 * (c.x * c.y).toNat + 2

/-- Run of `solve_maze` up to its outcome kind: `none` for fuel exhaustion (never
happens on valid mazes), `some (.error ())` for a panic, `some (.ok l)` for
a returned move list. -/
def solveCore (map : List (List Char)) (sp ep : Int × Int) :
    Option (Except Unit (List Char)) :=
  match map.head? with
  | none => some (.error ())
  | some r0 =>
    let c : Ctx := { map := map, x := (r0.length : Int), y := (map.length : Int),
                     rootPos := ep, targetPos := sp }
    solveAux c (searchFuel c) (initState c)

/-- Source `solve_maze`: the returned move sequence. -/
def solve_maze (m : Maze) : List Char :=
  match solveCore m.map m.starting_position m.ending_position with
  | some (.ok l) => l
  | _ => []

/-! ## Specification-side definitions

The replay convention of `show_maze_with_tour` and the notion of a valid
move sequence used by the claims. -/

/-- The replay convention of `show_maze_with_tour`:
`'S'` is `y+1`, `'E'` is `x+1`, `'N'` is `y-1`, `'W'` is `x-1`. -/
def stepDir (p : Int × Int) (c : Char) : Int × Int :=
  if c = 'S' then (p.1, p.2 + 1)
  else if c = 'E' then (p.1 + 1, p.2)
  else if c = 'N' then (p.1, p.2 - 1)
  else (p.1 - 1, p.2)

/-- Whether the grid cell at `p` exists and is not a wall. -/
def passB (map : List (List Char)) (p : Int × Int) : Bool :=
  decide (0 ≤ p.1) && decide (0 ≤ p.2) &&
    match gridGet map p.1 p.2 with
    | none => false
    | some cell => decide (cell ≠ 'X')

/-- Whether `p` is in bounds and passable. -/
def okCell (map : List (List Char)) (x y : Int) (p : Int × Int) : Bool :=
  decide (0 ≤ p.1) && decide (p.1 < x) && decide (0 ≤ p.2) && decide (p.2 < y)
    && passB map p

/-- Grid width (length of row 0) and height (number of rows). -/
def mWidth (m : Maze) : Nat := m.map.headI.length

/-- Grid height. -/
def mHeight (m : Maze) : Nat := m.map.length

/-- Replay a move list from `p`, requiring every visited cell (including the
first and the last) to be in bounds and passable and the final cell to be
the maze's `ending_position`. -/
def replayGo (m : Maze) : (Int × Int) → List Char → Bool
  | p, [] => okCell m.map (mWidth m) (mHeight m) p && decide (p = m.ending_position)
  | p, ch :: rest => okCell m.map (mWidth m) (mHeight m) p && replayGo m (stepDir p ch) rest

/-- A cardinal direction character. -/
def isDir (ch : Char) : Bool :=
  decide (ch = 'N') || decide (ch = 'S') || decide (ch = 'E') || decide (ch = 'W')

/-- A valid solution sequence: every element is a cardinal move and the
replay from `starting_position` stays on in-bounds non-wall cells and ends
at `ending_position`. -/
def validSeqB (m : Maze) (s : List Char) : Bool :=
  s.all isDir && replayGo m m.starting_position s

/-- Propositional form of `validSeqB`. -/
abbrev ValidSeq (m : Maze) (s : List Char) : Prop := validSeqB m s = true

/-- In-bounds coordinate. -/
abbrev inBounds (x y : Int) (p : Int × Int) : Prop :=
  0 ≤ p.1 ∧ p.1 < x ∧ 0 ≤ p.2 ∧ p.2 < y

/-- A valid maze: at least one row and one column, rectangular rows, and
in-bounds start and goal coordinates. -/
abbrev ValidMaze (m : Maze) : Prop :=
  0 < mHeight m ∧ 0 < mWidth m ∧
  (∀ row ∈ m.map, row.length = mWidth m) ∧
  inBounds (mWidth m) (mHeight m) m.starting_position ∧
  inBounds (mWidth m) (mHeight m) m.ending_position

/-! ## The search graph

The graph actually explored by `solve_maze`: vertices are cells, and there
is an edge from `p` to `q` when `q = p + δ` for one of the four deltas of
`dirList` and `q` is in bounds and not a wall (the source cell is not
constrained, matching the code, which never re-checks the popped cell). -/

/-- The linear cell id used by the search (`x * y-coordinate + x-coordinate`). -/
def idOf (x : Int) (p : Int × Int) : Nat := (x * p.2 + p.1).toNat

/-- A path of length `n` in the search graph from the search root. -/
inductive Reach (c : Ctx) : (Int × Int) → Nat → Prop where
  | zero : Reach c c.rootPos 0
  | succ {p q : Int × Int} {n : Nat} (hp : Reach c p n)
      (hd : ∃ d ∈ dirList, q = (p.1 + d.2.1, p.2 + d.2.2))
      (hb : inBounds c.x c.y q) (hpass : passB c.map q = true) :
      Reach c q (n + 1)

/-- The function `replayGo`, expressed over a search context. -/
def goB (c : Ctx) : (Int × Int) → List Char → Bool
  | p, [] => okCell c.map c.x c.y p && decide (p = c.rootPos)
  | p, ch :: rest => okCell c.map c.x c.y p && goB c (stepDir p ch) rest

/-- Well-formedness of a search context, as produced from a valid maze. -/
structure CtxOK (c : Ctx) : Prop where
  hx : 0 < c.x
  hy : c.y = (c.map.length : Int)
  hrect : ∀ row ∈ c.map, (row.length : Int) = c.x
  hroot : inBounds c.x c.y c.rootPos
  htarget : inBounds c.x c.y c.targetPos

/-- The root node of the search, as created by `solve_maze`. -/
def rootNode (c : Ctx) : Node := Node.from_pos c.rootPos c.x c.y

/-- The id of the search root. -/
def rootId (c : Ctx) : Nat := idOf c.x c.rootPos

/-! ## Basic lemmas -/

theorem setNode_self (f : Nat → Option Node) (i : Nat) (v : Node) :
    setNode f i v i = some v := by
  simp [setNode]

theorem setNode_ne (f : Nat → Option Node) (i j : Nat) (v : Node) (h : j ≠ i) :
    setNode f i v j = f j := by
  simp [setNode, h]

theorem popMax_none {l : List Pair} (h : popMax l = none) : l = [] := by
  cases l with
  | nil => rfl
  | cons p rest =>
    rcases hr : popMax rest with _ | ⟨q, rest2⟩
    · rw [popMax, hr] at h
      dsimp only at h
      exact absurd h (by simp)
    · rw [popMax, hr] at h
      dsimp only at h
      by_cases hk : q.key ≤ p.key <;> simp [hk] at h

theorem popMax_perm {l : List Pair} {p : Pair} {r : List Pair}
    (h : popMax l = some (p, r)) : l.Perm (p :: r) := by
  induction l generalizing p r with
  | nil => simp [popMax] at h
  | cons a rest ih =>
    rcases hr : popMax rest with _ | ⟨q, rest2⟩
    · rw [popMax, hr] at h
      dsimp only at h
      have hnil : rest = [] := popMax_none hr
      subst hnil
      simp only [Option.some.injEq, Prod.mk.injEq] at h
      obtain ⟨rfl, rfl⟩ := h
      exact List.Perm.refl _
    · rw [popMax, hr] at h
      dsimp only at h
      by_cases hk : q.key ≤ a.key
      · rw [if_pos hk] at h
        simp only [Option.some.injEq, Prod.mk.injEq] at h
        obtain ⟨rfl, rfl⟩ := h
        exact List.Perm.refl _
      · rw [if_neg hk] at h
        simp only [Option.some.injEq, Prod.mk.injEq] at h
        have hperm : (a :: rest).Perm (a :: q :: rest2) := (ih hr).cons a
        have hswap : (a :: q :: rest2).Perm (q :: a :: rest2) := List.Perm.swap q a rest2
        have hcomb : (a :: rest).Perm (q :: a :: rest2) := hperm.trans hswap
        rw [h.1, h.2] at hcomb
        exact hcomb

theorem popMax_le {l : List Pair} {p : Pair} {r : List Pair}
    (h : popMax l = some (p, r)) : ∀ q ∈ l, q.key ≤ p.key := by
  induction l generalizing p r with
  | nil => simp [popMax] at h
  | cons a rest ih =>
    rcases hr : popMax rest with _ | ⟨q0, rest2⟩
    · rw [popMax, hr] at h
      dsimp only at h
      have hnil : rest = [] := popMax_none hr
      subst hnil
      simp only [Option.some.injEq, Prod.mk.injEq] at h
      intro q hq
      simp only [List.mem_singleton] at hq
      rw [hq, ← h.1]
    · rw [popMax, hr] at h
      dsimp only at h
      by_cases hk : q0.key ≤ a.key
      · rw [if_pos hk] at h
        simp only [Option.some.injEq, Prod.mk.injEq] at h
        intro q hq
        rcases List.mem_cons.mp hq with rfl | hq2
        · rw [← h.1]
        · rw [← h.1]
          exact le_trans (ih hr q hq2) hk
      · rw [if_neg hk] at h
        simp only [Option.some.injEq, Prod.mk.injEq] at h
        intro q hq
        rcases List.mem_cons.mp hq with rfl | hq2
        · rw [← h.1]
          exact le_of_lt (lt_of_not_le hk)
        · rw [← h.1]
          exact ih hr q hq2

theorem popMax_mem {l : List Pair} {p : Pair} {r : List Pair}
    (h : popMax l = some (p, r)) : p ∈ l :=
  (popMax_perm h).mem_iff.mpr (List.mem_cons_self p r)

theorem popMax_mem_of_ne {l : List Pair} {p e : Pair} {r : List Pair}
    (h : popMax l = some (p, r)) (he : e ∈ l) (hne : e ≠ p) : e ∈ r := by
  rcases List.mem_cons.mp ((popMax_perm h).mem_iff.mp he) with h1 | h2
  · exact absurd h1 hne
  · exact h2

theorem popMax_length {l : List Pair} {p : Pair} {r : List Pair}
    (h : popMax l = some (p, r)) : l.length = r.length + 1 := by
  have := (popMax_perm h).length_eq
  simpa using this

/-- Injectivity of the cell id on in-bounds coordinates. -/
theorem idOf_inj {x y : Int} {p q : Int × Int} (hx : 0 < x)
    (hp : inBounds x y p) (hq : inBounds x y q) (h : idOf x p = idOf x q) :
    p = q := by
  obtain ⟨hp1, hp2, hp3, _⟩ := hp
  obtain ⟨hq1, hq2, hq3, _⟩ := hq
  have a1 : 0 ≤ x * p.2 := mul_nonneg (le_of_lt hx) hp3
  have a2 : 0 ≤ x * q.2 := mul_nonneg (le_of_lt hx) hq3
  have e1 : x * p.2 + p.1 = x * q.2 + q.1 := by
    simp only [idOf] at h
    omega
  have hp2' : p.2 = q.2 := by
    rcases lt_trichotomy p.2 q.2 with h' | h' | h'
    · nlinarith
    · exact h'
    · nlinarith
  have : p.1 = q.1 := by rw [hp2'] at e1; omega
  exact Prod.ext this hp2'

/-- The cell id of an in-bounds coordinate is below the cell count. -/
theorem idOf_lt {x y : Int} {p : Int × Int} (hx : 0 < x)
    (hp : inBounds x y p) : idOf x p < (x * y).toNat := by
  obtain ⟨hp1, hp2, hp3, hp4⟩ := hp
  have h1 : x * p.2 + p.1 < x * (p.2 + 1) := by ring_nf; omega
  have h2 : x * (p.2 + 1) ≤ x * y := by
    exact mul_le_mul_of_nonneg_left (by omega) (le_of_lt hx)
  have h3 : x * p.2 + p.1 < x * y := lt_of_lt_of_le h1 h2
  have h0 : 0 ≤ x * p.2 + p.1 := by
    have := mul_nonneg (le_of_lt hx) hp3
    omega
  simp only [idOf]
  omega

/-- Nonnegativity of the Manhattan heuristic. -/
theorem csp_nonneg (s t : Int × Int) : 0 ≤ calculate_shortest_possible s t := by
  simp only [calculate_shortest_possible]
  positivity

/-- Consistency of the Manhattan heuristic along one grid move. -/
theorem csp_adj (t : Int × Int) {p q : Int × Int}
    (hd : ∃ d ∈ dirList, q = (p.1 + d.2.1, p.2 + d.2.2)) :
    calculate_shortest_possible t p ≤ calculate_shortest_possible t q + 1 ∧
    calculate_shortest_possible t q ≤ calculate_shortest_possible t p + 1 := by
  obtain ⟨d, hdm, rfl⟩ := hd
  simp only [dirList, List.mem_cons, List.not_mem_nil, or_false] at hdm
  rcases hdm with rfl | rfl | rfl | rfl <;>
    · simp only [calculate_shortest_possible, Int.abs_eq_natAbs]
      constructor <;> omega

/-- Every cell on a search path except possibly the root is in bounds; with
a well-formed context the root is too. -/
theorem reach_inBounds {c : Ctx} (hc : CtxOK c) {p : Int × Int} {n : Nat}
    (h : Reach c p n) : inBounds c.x c.y p := by
  cases h with
  | zero => exact hc.hroot
  | succ hp hd hb hpass => exact hb

/-- Paths of length zero start and end at the root. -/
theorem reach_zero {c : Ctx} {p : Int × Int} (h : Reach c p 0) : p = c.rootPos := by
  cases h; rfl

theorem passB_true_iff {map : List (List Char)} {p : Int × Int} :
    passB map p = true ↔
      0 ≤ p.1 ∧ 0 ≤ p.2 ∧ ∃ cell, gridGet map p.1 p.2 = some cell ∧ cell ≠ 'X' := by
  simp only [passB, Bool.and_eq_true, decide_eq_true_eq]
  rcases hg : gridGet map p.1 p.2 with _ | cell
  · simp
  · simp only [decide_eq_true_eq]
    constructor
    · rintro ⟨⟨h1, h2⟩, h3⟩
      exact ⟨h1, h2, cell, rfl, h3⟩
    · rintro ⟨h1, h2, cell2, hc2, h3⟩
      cases hc2
      exact ⟨⟨h1, h2⟩, h3⟩

theorem okCell_true_iff {map : List (List Char)} {x y : Int} {p : Int × Int} :
    okCell map x y p = true ↔ inBounds x y p ∧ passB map p = true := by
  simp only [okCell, Bool.and_eq_true, decide_eq_true_eq, inBounds]
  tauto

/-- On a well-formed context, every in-bounds cell exists in the grid. -/
theorem gridGet_inBounds {c : Ctx} (hc : CtxOK c) {p : Int × Int}
    (hb : inBounds c.x c.y p) : ∃ cell, gridGet c.map p.1 p.2 = some cell := by
  obtain ⟨h1, h2, h3, h4⟩ := hb
  have hy : p.2.toNat < c.map.length := by
    have := hc.hy
    omega
  obtain ⟨row, hrow⟩ : ∃ row, c.map.get? p.2.toNat = some row :=
    ⟨c.map.get ⟨p.2.toNat, hy⟩, List.get?_eq_get hy⟩
  have hmem : row ∈ c.map := List.get?_mem hrow
  have hlen : (row.length : Int) = c.x := hc.hrect row hmem
  have hx : p.1.toNat < row.length := by omega
  obtain ⟨cell, hcell⟩ : ∃ cell, row.get? p.1.toNat = some cell :=
    ⟨row.get ⟨p.1.toNat, hx⟩, List.get?_eq_get hx⟩
  refine ⟨cell, ?_⟩
  unfold gridGet
  rw [hrow]
  exact hcell

/-! ## The search invariant

Invariant of the state at the head of the main loop of `solve_maze`,
following the standard structure of lazy-deletion best-first-search proofs:
shape and provenance of the node table, correctness of finalized (`closed`)
nodes, full relaxation of closed nodes' neighborhoods, presence of a
current-priority frontier entry for every reached unfinalized node, and
soundness of every frontier entry. -/

/-- The neighbor of `n` in direction `d` has been relaxed against `n`. -/
def ExpandedAt (c : Ctx) (st : SState) (n : Node) (d : Char × Int × Int) : Prop :=
  ∀ q, q = (n.pos.1 + d.2.1, n.pos.2 + d.2.2) → inBounds c.x c.y q →
    passB c.map q = true →
    idOf c.x q ∈ st.closed ∨
      ∃ nq, st.nodes (idOf c.x q) = some nq ∧ nq.g ≤ n.g + 1

structure Inv (c : Ctx) (st : SState) : Prop where
  shape : ∀ i n, st.nodes i = some n →
    n.x = c.x ∧ n.y = c.y ∧ inBounds c.x c.y n.pos ∧ i = idOf c.x n.pos
  rootMem : st.nodes (rootId c) = some (rootNode c)
  nonRoot : ∀ i n, st.nodes i = some n → i ≠ rootId c →
    passB c.map n.pos = true ∧ 0 ≤ n.g ∧
    n.h = calculate_shortest_possible c.targetPos n.pos ∧
    isDir n.direction = true ∧
    ∃ pn, st.nodes n.best_pred = some pn ∧ n.best_pred ∈ st.closed ∧
      pn.g + 1 = n.g ∧ pn.pos = stepDir n.pos n.direction
  closedLeast : ∀ i ∈ st.closed, ∃ n, st.nodes i = some n ∧
    IsLeast { k | Reach c n.pos k } (n.g + 1).toNat
  closedExpanded : ∀ i ∈ st.closed, ∀ n, st.nodes i = some n →
    ∀ d ∈ dirList, ExpandedAt c st n d
  frontierCur : ∀ i n, st.nodes i = some n → i ∉ st.closed →
    Pair.mk (-(n.g + n.h)) i ∈ st.heap
  heapSane : ∀ pr ∈ st.heap, ∃ n, st.nodes pr.value = some n ∧
    pr.key ≤ -(n.g + n.h)
  rootStart : rootId c ∉ st.closed →
    st.heap = [Pair.mk 2 (rootId c)] ∧ st.closed = ∅ ∧
    ∀ i, i ≠ rootId c → st.nodes i = none
  targetFree : idOf c.x c.targetPos ∉ st.closed

/-- Mid-expansion invariant: everything in `Inv` except that the neighbors
of the node currently being expanded are only partially relaxed. -/
structure MidInv (c : Ctx) (cur : Node) (st : SState) : Prop where
  shape : ∀ i n, st.nodes i = some n →
    n.x = c.x ∧ n.y = c.y ∧ inBounds c.x c.y n.pos ∧ i = idOf c.x n.pos
  rootMem : st.nodes (rootId c) = some (rootNode c)
  nonRoot : ∀ i n, st.nodes i = some n → i ≠ rootId c →
    passB c.map n.pos = true ∧ 0 ≤ n.g ∧
    n.h = calculate_shortest_possible c.targetPos n.pos ∧
    isDir n.direction = true ∧
    ∃ pn, st.nodes n.best_pred = some pn ∧ n.best_pred ∈ st.closed ∧
      pn.g + 1 = n.g ∧ pn.pos = stepDir n.pos n.direction
  closedLeast : ∀ i ∈ st.closed, ∃ n, st.nodes i = some n ∧
    IsLeast { k | Reach c n.pos k } (n.g + 1).toNat
  closedExpandedOld : ∀ i ∈ st.closed, i ≠ cur.id → ∀ n, st.nodes i = some n →
    ∀ d ∈ dirList, ExpandedAt c st n d
  frontierCur : ∀ i n, st.nodes i = some n → i ∉ st.closed →
    Pair.mk (-(n.g + n.h)) i ∈ st.heap
  heapSane : ∀ pr ∈ st.heap, ∃ n, st.nodes pr.value = some n ∧
    pr.key ≤ -(n.g + n.h)
  curClosed : cur.id ∈ st.closed
  curNode : st.nodes cur.id = some cur
  rootClosed : rootId c ∈ st.closed
  targetFree : idOf c.x c.targetPos ∉ st.closed

/-- A node's table index is its own id. -/
theorem Inv.node_id {c : Ctx} {st : SState} (hInv : Inv c st) {i : Nat} {n : Node}
    (h : st.nodes i = some n) : n.id = i := by
  obtain ⟨hx, _, _, hi⟩ := hInv.shape i n h
  simp only [Node.id, hx, hi, idOf]

/-- Every node in the table has `g ≥ -1`. -/
theorem Inv.g_lb {c : Ctx} {st : SState} (hInv : Inv c st) {i : Nat} {n : Node}
    (h : st.nodes i = some n) : -1 ≤ n.g := by
  by_cases hr : i = rootId c
  · subst hr
    rw [hInv.rootMem] at h
    cases h
    norm_num [rootNode, Node.from_pos]
  · have := (hInv.nonRoot i n h hr).2.1
    omega

/-- A node that sits at the root id is the root node. -/
theorem Inv.eq_root {c : Ctx} {st : SState} (hInv : Inv c st) {n : Node}
    (h : st.nodes (rootId c) = some n) : n = rootNode c := by
  rw [hInv.rootMem] at h
  exact (Option.some.injEq _ _ ▸ h).symm

/-- Every node in the table is the endpoint of a search path of length
`g + 1` (so `g + 1` is an upper bound for the true distance). -/
theorem Inv.reachOfNode {c : Ctx} {st : SState} (hInv : Inv c st) :
    ∀ k i n, st.nodes i = some n → (n.g + 1).toNat = k → Reach c n.pos k := by
  intro k
  induction k using Nat.strong_induction_on with
  | _ k ih =>
    intro i n hn hk
    by_cases hr : i = rootId c
    · subst hr
      have hroot : n = rootNode c := hInv.eq_root hn
      subst hroot
      have : (((-1 : Int)) + 1).toNat = 0 := by norm_num
      simp only [rootNode, Node.from_pos] at hk ⊢
      rw [← hk]
      exact Reach.zero
    · obtain ⟨hpass, hg0, hh, hdir, pn, hpn, hpc, hpg, hpp⟩ := hInv.nonRoot i n hn hr
      have hkpos : k = (pn.g + 1).toNat + 1 := by omega
      have hrec : Reach c pn.pos ((pn.g + 1).toNat) :=
        ih _ (by omega) n.best_pred pn hpn rfl
      have hb : inBounds c.x c.y n.pos := (hInv.shape i n hn).2.2.1
      have hd : ∃ d ∈ dirList, n.pos = (pn.pos.1 + d.2.1, pn.pos.2 + d.2.2) := by
        simp only [isDir, Bool.or_eq_true, decide_eq_true_eq] at hdir
        rcases hdir with ((h1 | h1) | h1) | h1 <;>
          rw [h1] at hpp <;> simp only [stepDir] at hpp <;> rw [hpp] <;>
          simp only [dirList, List.mem_cons, Prod.mk.injEq]
        · exact ⟨('N', (0, 1)), by simp, by simp⟩
        · exact ⟨('S', (0, -1)), by simp, by simp⟩
        · exact ⟨('E', (-1, 0)), by simp, by simp⟩
        · exact ⟨('W', (1, 0)), by simp, by simp⟩
      rw [hkpos]
      exact Reach.succ hrec hd hb hpass

/-- Walking a search path backwards from an unfinalized endpoint, one finds
an unfinalized cell `w` that is either the root or the successor of a
finalized cell, with the heuristic changing by at most one per step along
the walked suffix. -/
theorem reach_split {c : Ctx} (S : Finset Nat) :
    ∀ {u : Int × Int} {d : Nat}, Reach c u d → idOf c.x u ∉ S →
    ∃ w j, j ≤ d ∧ Reach c w j ∧ idOf c.x w ∉ S ∧
      calculate_shortest_possible c.targetPos w + (j : Int) ≤
        (d : Int) + calculate_shortest_possible c.targetPos u ∧
      ((w = c.rootPos ∧ j = 0) ∨
        ∃ p jp, j = jp + 1 ∧ Reach c p jp ∧ idOf c.x p ∈ S ∧
          (∃ dd ∈ dirList, w = (p.1 + dd.2.1, p.2 + dd.2.2)) ∧
          inBounds c.x c.y w ∧ passB c.map w = true) := by
  intro u d hr
  induction hr with
  | zero =>
    intro hu
    exact ⟨c.rootPos, 0, le_refl 0, Reach.zero, hu, by omega, Or.inl ⟨rfl, rfl⟩⟩
  | succ hp hd hb hpass ih =>
    rename_i p q n
    intro hu
    by_cases hpS : idOf c.x p ∈ S
    · exact ⟨q, n + 1, le_refl _, Reach.succ hp hd hb hpass, hu, by omega,
        Or.inr ⟨p, n, rfl, hp, hpS, hd, hb, hpass⟩⟩
    · obtain ⟨w, j, hj, hw, hwS, hbound, hcase⟩ := ih hpS
      refine ⟨w, j, le_trans hj (Nat.le_succ n), hw, hwS, ?_, hcase⟩
      have hstep := (csp_adj c.targetPos hd).1
      push_cast
      omega

/-- The A* pop lemma: with a well-formed context and the loop invariant,
any popped entry whose node is not yet finalized carries the node's true
shortest distance (shifted by the code's `-1` convention): `g + 1` is the
least search-path length to the node's cell. -/
theorem popCorrect {c : Ctx} {st : SState} (hc : CtxOK c) (hInv : Inv c st)
    {pr : Pair} {rest : List Pair} (hpop : popMax st.heap = some (pr, rest))
    (hun : pr.value ∉ st.closed) :
    ∃ n, st.nodes pr.value = some n ∧
      IsLeast { k | Reach c n.pos k } (n.g + 1).toNat := by
  obtain ⟨n, hn, hkey⟩ := hInv.heapSane pr (popMax_mem hpop)
  refine ⟨n, hn, ?_⟩
  have hmemset : (n.g + 1).toNat ∈ { k | Reach c n.pos k } :=
    hInv.reachOfNode _ pr.value n hn rfl
  have hne : { k | Reach c n.pos k }.Nonempty := ⟨_, hmemset⟩
  set d := sInf { k | Reach c n.pos k } with hdDef
  have hd : Reach c n.pos d := Nat.sInf_mem hne
  have hidn : pr.value = idOf c.x n.pos := (hInv.shape pr.value n hn).2.2.2
  have hun2 : idOf c.x n.pos ∉ st.closed := hidn ▸ hun
  obtain ⟨w, j, hj, hw, hwS, hbound, hcase⟩ := reach_split st.closed hd hun2
  have hglast : n.g + 1 ≤ (d : Int) := by
    rcases hcase with ⟨hweq, hjeq⟩ | ⟨p, jp, hjeq, hpreach, hpS, hdd, hbw, hpassw⟩
    · -- the walk reached the root unfinalized: the state is the initial one
      have hrootfree : rootId c ∉ st.closed := by
        show idOf c.x c.rootPos ∉ st.closed
        rw [← hweq]
        exact hwS
      obtain ⟨hheap, hclosed, hrest⟩ := hInv.rootStart hrootfree
      have hprmem : pr ∈ st.heap := popMax_mem hpop
      rw [hheap] at hprmem
      simp only [List.mem_singleton] at hprmem
      have hval : pr.value = rootId c := by rw [hprmem]
      have hroot : n = rootNode c := hInv.eq_root (hval ▸ hn)
      have hg : n.g = -1 := by rw [hroot]; rfl
      have : 0 ≤ (d : Int) := by positivity
      omega
    · -- the walk crossed the frontier of the finalized region at w
      obtain ⟨np, hnp, hleast_p⟩ := hInv.closedLeast _ hpS
      have hpin : inBounds c.x c.y p := reach_inBounds hc hpreach
      have hnppos : np.pos = p := by
        have h1 := (hInv.shape _ np hnp).2.2.2
        exact idOf_inj hc.hx (hInv.shape _ np hnp).2.2.1 hpin h1.symm
      have hnpg : -1 ≤ np.g := hInv.g_lb hnp
      have hnple : np.g + 1 ≤ (jp : Int) := by
        have h2 : (np.g + 1).toNat ≤ jp := hleast_p.2 (hnppos ▸ hpreach)
        omega
      have hrootclosed : rootId c ∈ st.closed := by
        by_contra hrc
        obtain ⟨_, hclosed, _⟩ := hInv.rootStart hrc
        rw [hclosed] at hpS
        exact absurd hpS (Finset.not_mem_empty _)
      have hwne : idOf c.x w ≠ rootId c := fun h => hwS (h ▸ hrootclosed)
      have hexp := hInv.closedExpanded _ hpS np hnp
      obtain ⟨dd, hddm, hweq⟩ := hdd
      have hrelax := hexp dd hddm w (by rw [hnppos]; exact hweq) hbw hpassw
      rcases hrelax with hclosedw | ⟨nw, hnw, hgw⟩
      · exact absurd hclosedw hwS
      · have hnwpos : nw.pos = w := by
          have h1 := (hInv.shape _ nw hnw).2.2.2
          exact idOf_inj hc.hx (hInv.shape _ nw hnw).2.2.1 hbw h1.symm
        obtain ⟨_, _, hnwh, _, _⟩ := hInv.nonRoot _ nw hnw hwne
        have hentry := hInv.frontierCur _ nw hnw hwS
        have hle := popMax_le hpop _ hentry
        have hprne : pr.value ≠ rootId c := fun h => hun (h ▸ hrootclosed)
        obtain ⟨_, _, hnh, _, _⟩ := hInv.nonRoot _ n hn hprne
        -- chain the inequalities
        rw [hnwpos] at hnwh
        have key1 : n.g + n.h ≤ nw.g + nw.h := by
          simp only at hle
          omega
        rw [hnh, hnwh] at key1
        omega
  constructor
  · exact hmemset
  · intro k hk
    have h1 : d ≤ k := Nat.sInf_le hk
    omega

/-! ## Preservation of the invariant by one neighbor-relaxation step -/

theorem dirList_cases {d : Char × Int × Int} (h : d ∈ dirList) :
    d = ('N', (0, 1)) ∨ d = ('W', (1, 0)) ∨ d = ('E', (-1, 0)) ∨ d = ('S', (0, -1)) := by
  simpa only [dirList, List.mem_cons, List.not_mem_nil, or_false] using h

theorem isDir_of_dirList {d : Char × Int × Int} (h : d ∈ dirList) : isDir d.1 = true := by
  rcases dirList_cases h with rfl | rfl | rfl | rfl <;> rfl

/-- The stored direction label undoes the expansion delta: replaying the
label from the neighbor cell leads back to the expanded cell. -/
theorem stepDir_back {d : Char × Int × Int} (h : d ∈ dirList) (p : Int × Int) :
    stepDir (p.1 + d.2.1, p.2 + d.2.2) d.1 = p := by
  rcases dirList_cases h with rfl | rfl | rfl | rfl
  · show stepDir (p.1 + 0, p.2 + 1) 'N' = p
    rw [stepDir, if_neg (by decide), if_neg (by decide), if_pos rfl]
    exact Prod.ext (by ring) (by ring)
  · show stepDir (p.1 + 1, p.2 + 0) 'W' = p
    rw [stepDir, if_neg (by decide), if_neg (by decide), if_neg (by decide)]
    exact Prod.ext (by ring) (by ring)
  · show stepDir (p.1 + -1, p.2 + 0) 'E' = p
    rw [stepDir, if_neg (by decide), if_pos rfl]
    exact Prod.ext (by ring) (by ring)
  · show stepDir (p.1 + 0, p.2 + -1) 'S' = p
    rw [stepDir, if_pos rfl]
    exact Prod.ext (by ring) (by ring)

theorem MidInv.g_lower_bound {c : Ctx} {cur : Node} {st : SState} (hm : MidInv c cur st)
    {i : Nat} {n : Node} (h : st.nodes i = some n) : -1 ≤ n.g := by
  by_cases hr : i = rootId c
  · subst hr
    rw [hm.rootMem] at h
    cases h
    norm_num [rootNode, Node.from_pos]
  · have := (hm.nonRoot i n h hr).2.1
    omega

theorem MidInv.congr_nodes {c : Ctx} {cur : Node} {st : SState} (hm : MidInv c cur st)
    {f2 : Nat → Option Node} (hpt : ∀ j, f2 j = st.nodes j) :
    MidInv c cur { heap := st.heap, closed := st.closed, nodes := f2 } := by
  constructor
  · intro i n hn
    exact hm.shape i n ((hpt i).symm.trans hn)
  · exact (hpt _).trans hm.rootMem
  · intro i n hn hr
    obtain ⟨h1, h2, h3, h4, pn, hpn, hpc, hpg, hpp⟩ :=
      hm.nonRoot i n ((hpt i).symm.trans hn) hr
    exact ⟨h1, h2, h3, h4, pn, (hpt _).trans hpn, hpc, hpg, hpp⟩
  · intro i hi
    obtain ⟨n, hn, hl⟩ := hm.closedLeast i hi
    exact ⟨n, (hpt _).trans hn, hl⟩
  · intro i hi hne n hn dd hdd
    intro q hq hb hpass
    rcases hm.closedExpandedOld i hi hne n ((hpt i).symm.trans hn) dd hdd q hq hb hpass
      with h | ⟨nq, hnq, hg⟩
    · exact Or.inl h
    · exact Or.inr ⟨nq, (hpt _).trans hnq, hg⟩
  · intro i n hn hni
    exact hm.frontierCur i n ((hpt i).symm.trans hn) hni
  · intro pr hpr
    obtain ⟨n, hn, hk⟩ := hm.heapSane pr hpr
    exact ⟨n, (hpt _).trans hn, hk⟩
  · exact hm.curClosed
  · exact (hpt _).trans hm.curNode
  · exact hm.rootClosed
  · exact hm.targetFree

theorem ExpandedAt_mono {c : Ctx} {st st2 : SState} {n : Node} {d : Char × Int × Int}
    (hclosed : ∀ i, i ∈ st.closed → i ∈ st2.closed)
    (hmono : ∀ i n1, st.nodes i = some n1 →
      ∃ n2, st2.nodes i = some n2 ∧ n2.g ≤ n1.g)
    (h : ExpandedAt c st n d) : ExpandedAt c st2 n d := by
  intro q hq hb hpass
  rcases h q hq hb hpass with h1 | ⟨nq, hnq, hg⟩
  · exact Or.inl (hclosed _ h1)
  · obtain ⟨n2, hn2, hg2⟩ := hmono _ nq hnq
    exact Or.inr ⟨n2, hn2, le_trans hg2 hg⟩

/-- All conclusions of one `processDir` step needed by the expansion proof. -/
structure DirStep (c : Ctx) (cur : Node) (st st2 : SState)
    (d : Char × Int × Int) : Prop where
  mid : MidInv c cur st2
  expanded : ExpandedAt c st2 cur d
  closedEq : st2.closed = st.closed
  closedNodesEq : ∀ i, i ∈ st.closed → st2.nodes i = st.nodes i
  gMono : ∀ i n1, st.nodes i = some n1 → ∃ n2, st2.nodes i = some n2 ∧ n2.g ≤ n1.g
  heapSub : ∀ e ∈ st.heap, e ∈ st2.heap
  heapLen : st2.heap.length ≤ st.heap.length + 1


/-- The already-finalized-neighbor branch of `processDir`: the `or_insert`
rewrites the table entry with its own value, so nothing changes. -/
theorem closedSkip_step {c : Ctx} {cur : Node} {st : SState}
    (hm : MidInv c cur st) {d : Char × Int × Int}
    {nx ny : Int} (hnx : nx = cur.pos.1 + d.2.1) (hny : ny = cur.pos.2 + d.2.2)
    {nb : Node} (hsome : st.nodes (idOf c.x (nx, ny)) = some nb)
    (hmem : idOf c.x (nx, ny) ∈ st.closed) :
    DirStep c cur st
      { st with nodes := setNode st.nodes (idOf c.x (nx, ny)) nb } d := by
  have hpt : ∀ j, setNode st.nodes (idOf c.x (nx, ny)) nb j = st.nodes j := by
    intro j
    by_cases hj : j = idOf c.x (nx, ny)
    · rw [hj, setNode_self, hsome]
    · rw [setNode_ne _ _ _ _ hj]
  refine ⟨hm.congr_nodes hpt, ?_, rfl, fun i _ => hpt i,
    fun i n1 h => ⟨n1, (hpt i).trans h, le_refl _⟩, fun e he => he,
    by show st.heap.length ≤ st.heap.length + 1; omega⟩
  intro q hq hbq hpassq
  left
  rw [hq, ← hnx, ← hny]
  exact hmem

/-- The no-improvement branch of `processDir`: the neighbor already has a
`g` at most `cur.g + 1`, the table entry is rewritten with its own value. -/
theorem noRelax_step {c : Ctx} {cur : Node} {st : SState}
    (hm : MidInv c cur st) {d : Char × Int × Int}
    {nx ny : Int} (hnx : nx = cur.pos.1 + d.2.1) (hny : ny = cur.pos.2 + d.2.2)
    {nb : Node} (hsome : st.nodes (idOf c.x (nx, ny)) = some nb)
    (hng : nb.g ≤ cur.g + 1) :
    DirStep c cur st
      { st with nodes := setNode st.nodes (idOf c.x (nx, ny)) nb } d := by
  have hpt : ∀ j, setNode st.nodes (idOf c.x (nx, ny)) nb j = st.nodes j := by
    intro j
    by_cases hj : j = idOf c.x (nx, ny)
    · rw [hj, setNode_self, hsome]
    · rw [setNode_ne _ _ _ _ hj]
  refine ⟨hm.congr_nodes hpt, ?_, rfl, fun i _ => hpt i,
    fun i n1 h => ⟨n1, (hpt i).trans h, le_refl _⟩, fun e he => he,
    by show st.heap.length ≤ st.heap.length + 1; omega⟩
  intro q hq hbq hpassq
  right
  rw [hq, ← hnx, ← hny]
  exact ⟨nb, (hpt _).trans hsome, hng⟩

/-- The relaxation branch of `processDir`: the neighbor is unfinalized and
either fresh (`g = -1`) or strictly improved; its record is rewritten and a
new frontier entry with the updated `f` key is pushed. -/
theorem relax_step {c : Ctx} {cur : Node} {st : SState}
    (hm : MidInv c cur st) {d : Char × Int × Int} (hd : d ∈ dirList)
    {nx ny : Int} (hnx : nx = cur.pos.1 + d.2.1) (hny : ny = cur.pos.2 + d.2.2)
    (hb : inBounds c.x c.y (nx, ny)) (hpassq : passB c.map (nx, ny) = true)
    (nb : Node) (hnbx : nb.x = c.x) (hnby : nb.y = c.y) (hnbpos : nb.pos = (nx, ny))
    (hnbg : st.nodes (idOf c.x (nx, ny)) = some nb ∨
      st.nodes (idOf c.x (nx, ny)) = none ∧ nb.g = -1)
    (hfresh : idOf c.x (nx, ny) ∉ st.closed)
    (hcond : nb.g > cur.g + 1 ∨ nb.g < 0) :
    DirStep c cur st
      { heap := Pair.mk
          (Node.f { nb with best_pred := cur.id, direction := d.1, g := cur.g + 1,
                            h := calculate_shortest_possible c.targetPos nb.pos })
          (idOf c.x (nx, ny)) :: st.heap,
        closed := st.closed,
        nodes := setNode st.nodes (idOf c.x (nx, ny))
          { nb with best_pred := cur.id, direction := d.1, g := cur.g + 1,
                    h := calculate_shortest_possible c.targetPos nb.pos } } d := by
  set nid := idOf c.x (nx, ny) with hnid
  set upd : Node := ({ nb with best_pred := cur.id, direction := d.1, g := cur.g + 1,
                               h := calculate_shortest_possible c.targetPos nb.pos } : Node) with hupd
  have hcurg : -1 ≤ cur.g := hm.g_lower_bound hm.curNode
  have hcurne : cur.id ≠ nid := fun h => hfresh (h ▸ hm.curClosed)
  have hrootne : rootId c ≠ nid := fun h => hfresh (h ▸ hm.rootClosed)
  have hnidroot : nid ≠ rootId c := fun h => hrootne h.symm
  have hupdpos : upd.pos = (nx, ny) := hnbpos
  have holdg : st.nodes nid = some nb → cur.g + 1 ≤ nb.g := by
    intro hsome2
    rcases hcond with h | h
    · omega
    · exfalso
      have := (hm.nonRoot nid nb hsome2 hnidroot).2.1
      omega
  have hlookup : ∀ n1, st.nodes nid = some n1 → n1 = nb := by
    intro n1 h1
    rcases hnbg with h2 | ⟨h2, _⟩
    · rw [h1] at h2
      exact (Option.some.injEq _ _ ▸ h2)
    · rw [h1] at h2
      cases h2
  have hmono : ∀ i n1, st.nodes i = some n1 →
      ∃ n2, setNode st.nodes nid upd i = some n2 ∧ n2.g ≤ n1.g := by
    intro i n1 h1
    by_cases hi : i = nid
    · subst hi
      have hn1 : n1 = nb := hlookup n1 h1
      subst hn1
      exact ⟨upd, setNode_self _ _ _, holdg h1⟩
    · exact ⟨n1, (setNode_ne _ _ _ _ hi).trans h1, le_refl _⟩
  constructor
  · -- MidInv of the relaxed state
    constructor
    · -- shape
      intro i n hn
      have hn2 : setNode st.nodes nid upd i = some n := hn
      by_cases hi : i = nid
      · subst hi
        rw [setNode_self] at hn2
        cases hn2
        exact ⟨hnbx, hnby, hupdpos ▸ hb, by rw [hupdpos, hnid]⟩
      · exact hm.shape i n ((setNode_ne _ _ _ _ hi).symm.trans hn2)
    · -- rootMem
      show setNode st.nodes nid upd (rootId c) = _
      rw [setNode_ne _ _ _ _ (fun h => hrootne h)]
      exact hm.rootMem
    · -- nonRoot
      intro i n hn hr
      have hn2 : setNode st.nodes nid upd i = some n := hn
      by_cases hi : i = nid
      · subst hi
        rw [setNode_self] at hn2
        cases hn2
        refine ⟨by rw [hupdpos]; exact hpassq, by show 0 ≤ cur.g + 1; omega,
          rfl, isDir_of_dirList hd, cur, ?_, hm.curClosed, rfl, ?_⟩
        · show setNode st.nodes nid upd cur.id = some cur
          rw [setNode_ne _ _ _ _ hcurne]
          exact hm.curNode
        · show cur.pos = stepDir upd.pos upd.direction
          rw [hupdpos, hnx, hny]
          exact (stepDir_back hd cur.pos).symm
      · obtain ⟨h1, h2, h3, h4, pn, hpn, hpc, hpg, hpp⟩ :=
          hm.nonRoot i n ((setNode_ne _ _ _ _ hi).symm.trans hn2) hr
        refine ⟨h1, h2, h3, h4, pn, ?_, hpc, hpg, hpp⟩
        show setNode st.nodes nid upd n.best_pred = some pn
        rw [setNode_ne _ _ _ _ (fun h => hfresh (by rw [← h]; exact hpc))]
        exact hpn
    · -- closedLeast
      intro i hi
      have hi' : i ∈ st.closed := hi
      obtain ⟨n, hn, hl⟩ := hm.closedLeast i hi'
      refine ⟨n, ?_, hl⟩
      show setNode st.nodes nid upd i = some n
      rw [setNode_ne _ _ _ _ (fun h => hfresh (by rw [← h]; exact hi'))]
      exact hn
    · -- closedExpandedOld
      intro i hi hne n hn dd hdd
      have hi' : i ∈ st.closed := hi
      have hn2 : setNode st.nodes nid upd i = some n := hn
      have hn' : st.nodes i = some n := by
        have hine : i ≠ nid := fun h => hfresh (h ▸ hi')
        exact (setNode_ne _ _ _ _ hine).symm.trans hn2
      exact ExpandedAt_mono (fun j (hj : j ∈ st.closed) => hj)
        (fun j n1 (h1 : st.nodes j = some n1) => hmono j n1 h1)
        (hm.closedExpandedOld i hi' hne n hn' dd hdd)
    · -- frontierCur
      intro i n hn hni
      have hn2 : setNode st.nodes nid upd i = some n := hn
      by_cases hi : i = nid
      · subst hi
        rw [setNode_self] at hn2
        cases hn2
        exact List.mem_cons_self _ _
      · have hn' : st.nodes i = some n := (setNode_ne _ _ _ _ hi).symm.trans hn2
        exact List.mem_cons_of_mem _ (hm.frontierCur i n hn' hni)
    · -- heapSane
      intro e he
      rcases List.mem_cons.mp he with rfl | he2
      · exact ⟨upd, setNode_self _ _ _, le_refl _⟩
      · obtain ⟨n1, hn1, hkey⟩ := hm.heapSane e he2
        by_cases hi : e.value = nid
        · rw [hi] at hn1
          have heq : n1 = nb := hlookup n1 hn1
          rw [heq] at hn1 hkey
          refine ⟨upd, by rw [hi]; exact setNode_self _ _ _, ?_⟩
          have hnb2 := hm.nonRoot nid nb hn1 hnidroot
          have hh : nb.h = calculate_shortest_possible c.targetPos nb.pos := hnb2.2.2.1
          have hg := holdg hn1
          have hupdh : upd.h = calculate_shortest_possible c.targetPos nb.pos := rfl
          have hupdg : upd.g = cur.g + 1 := rfl
          rw [hupdh, hupdg, ← hh]
          omega
        · exact ⟨n1, (setNode_ne _ _ _ _ hi).trans hn1, hkey⟩
    · -- curClosed
      exact hm.curClosed
    · -- curNode
      show setNode st.nodes nid upd cur.id = some cur
      rw [setNode_ne _ _ _ _ hcurne]
      exact hm.curNode
    · -- rootClosed
      exact hm.rootClosed
    · -- targetFree
      exact hm.targetFree
  · -- ExpandedAt for this direction
    intro q hq hbq hpassq2
    right
    refine ⟨upd, ?_, le_refl _⟩
    have hq2 : q = (nx, ny) := by rw [hq, ← hnx, ← hny]
    rw [hq2, ← hnid]
    exact setNode_self _ _ _
  · -- closedEq
    rfl
  · -- closedNodesEq
    intro i hi
    exact setNode_ne _ _ _ _ (fun h => hfresh (h ▸ hi))
  · -- gMono
    exact hmono
  · -- heapSub
    exact fun e he => List.mem_cons_of_mem _ he
  · -- heapLen
    simp

/-- One `processDir` step from a mid-expansion state never fails on a
well-formed context and preserves the mid-expansion invariant, adding the
relaxation fact for its direction. -/
theorem processDir_ok {c : Ctx} (hc : CtxOK c) {cur : Node} {st : SState}
    (hm : MidInv c cur st) {d : Char × Int × Int} (hd : d ∈ dirList) :
    ∃ st2, processDir c cur st d = .ok st2 ∧ DirStep c cur st st2 d := by
  set nx := cur.pos.1 + d.2.1 with hnx
  set ny := cur.pos.2 + d.2.2 with hny
  by_cases hout : nx ≥ c.x ∨ nx < 0 ∨ ny ≥ c.y ∨ ny < 0
  · refine ⟨st, ?_, ?_⟩
    · simp only [processDir, ← hnx, ← hny, if_pos hout]
    · refine ⟨hm, ?_, rfl, fun i _ => rfl, fun i n1 h => ⟨n1, h, le_refl _⟩,
        fun e he => he, by omega⟩
      intro q hq hbq hpass
      exfalso
      rw [hq, ← hnx, ← hny] at hbq
      have h1 : (0 : Int) ≤ nx := hbq.1
      have h2 : nx < c.x := hbq.2.1
      have h3 : (0 : Int) ≤ ny := hbq.2.2.1
      have h4 : ny < c.y := hbq.2.2.2
      rcases hout with h | h | h | h <;> omega
  · have hb : inBounds c.x c.y (nx, ny) := by
      push_neg at hout
      obtain ⟨o1, o2, o3, o4⟩ := hout
      exact ⟨o2, o1, o4, o3⟩
    have hb1 : (0 : Int) ≤ nx := hb.1
    have hb2 : nx < c.x := hb.2.1
    have hb3 : (0 : Int) ≤ ny := hb.2.2.1
    obtain ⟨cell, hcell0⟩ := gridGet_inBounds hc hb
    have hcell : gridGet c.map nx ny = some cell := hcell0
    by_cases hwall : cell = 'X'
    · refine ⟨st, ?_, ?_⟩
      · simp only [processDir, ← hnx, ← hny, if_neg hout]
        rw [hcell]
        dsimp only
        rw [if_pos hwall]
      · refine ⟨hm, ?_, rfl, fun i _ => rfl, fun i n1 h => ⟨n1, h, le_refl _⟩,
          fun e he => he, by omega⟩
        intro q hq hbq hpass
        exfalso
        rw [hq, ← hnx, ← hny] at hpass
        rw [passB_true_iff] at hpass
        obtain ⟨_, _, cell2, hc2, hne2⟩ := hpass
        have hc2' : gridGet c.map nx ny = some cell2 := hc2
        rw [hcell] at hc2'
        cases hc2'
        exact hne2 hwall
    · have hpassq : passB c.map (nx, ny) = true := by
        rw [passB_true_iff]
        exact ⟨hb1, hb3, cell, hcell, hwall⟩
      have hidx : (nx + ny * c.x).toNat = idOf c.x (nx, ny) := by
        simp only [idOf]
        congr 1
        ring
      rcases hnd : st.nodes ((nx + ny * c.x).toNat) with _ | nd
      · -- fresh cell: `or_insert_with` creates it with sentinel g = -1 < 0,
        -- so it is relaxed and pushed
        have hfresh : ((nx + ny * c.x).toNat) ∉ st.closed := by
          intro hmem
          obtain ⟨n0, hn0, _⟩ := hm.closedLeast _ hmem
          rw [hnd] at hn0
          cases hn0
        have h0 : (0 : Int) ≤ nx + ny * c.x := by
          have := mul_nonneg hb3 (le_of_lt hc.hx)
          omega
        have hofNat : (Int.ofNat ((nx + ny * c.x).toNat)) = nx + ny * c.x := by
          simpa using Int.toNat_of_nonneg h0
        have hnbpos : (Node.new (Int.ofNat ((nx + ny * c.x).toNat)) c.x c.y).pos
            = (nx, ny) := by
          simp only [Node.new, Node.from_pos]
          rw [hofNat]
          refine Prod.ext ?_ ?_
          · show (nx + ny * c.x) % c.x = nx
            rw [Int.add_mul_emod_self]
            exact Int.emod_eq_of_lt hb1 hb2
          · show (nx + ny * c.x) / c.x = ny
            rw [Int.add_mul_ediv_right _ _ (ne_of_gt hc.hx)]
            rw [Int.ediv_eq_zero_of_lt hb1 hb2]
            ring
        have hnd' : st.nodes (idOf c.x (nx, ny)) = none := by
          rw [← hidx]; exact hnd
        have hfresh' : idOf c.x (nx, ny) ∉ st.closed := by
          rw [← hidx]; exact hfresh
        have hnb2 : (Node.new (Int.ofNat (idOf c.x (nx, ny))) c.x c.y).pos
            = (nx, ny) := by
          rw [← hidx]; exact hnbpos
        have hds := relax_step hm hd hnx hny hb hpassq
          (Node.new (Int.ofNat (idOf c.x (nx, ny))) c.x c.y) rfl rfl hnb2
          (Or.inr ⟨hnd', rfl⟩) hfresh'
          (Or.inr (show (-1 : Int) < 0 by norm_num))
        refine ⟨_, ?_, hds⟩
        simp only [processDir, ← hnx, ← hny, if_neg hout]
        rw [hcell]
        dsimp only
        rw [if_neg hwall, hnd]
        dsimp only
        rw [if_neg hfresh,
          if_pos (Or.inr (show (Node.new (Int.ofNat ((nx + ny * c.x).toNat))
            c.x c.y).g < 0 from show (-1 : Int) < 0 by norm_num))]
        rw [hidx]
      · -- existing neighbor record
        have hnd' : st.nodes (idOf c.x (nx, ny)) = some nd := by
          rw [← hidx]; exact hnd
        obtain ⟨hndx, hndy, hndb, hndi⟩ := hm.shape _ nd hnd'
        have hndpos : nd.pos = (nx, ny) := idOf_inj hc.hx hndb hb hndi.symm
        by_cases hmem : ((nx + ny * c.x).toNat) ∈ st.closed
        · have hmem' : idOf c.x (nx, ny) ∈ st.closed := by
            rw [← hidx]; exact hmem
          have hds := closedSkip_step hm hnx hny hnd' hmem'
          refine ⟨_, ?_, hds⟩
          simp only [processDir, ← hnx, ← hny, if_neg hout]
          rw [hcell]
          dsimp only
          rw [if_neg hwall, hnd]
          dsimp only
          rw [if_pos hmem]
          rw [hidx]
        · by_cases hcond : nd.g > cur.g + 1 ∨ nd.g < 0
          · have hfresh' : idOf c.x (nx, ny) ∉ st.closed := by
              rw [← hidx]; exact hmem
            have hds := relax_step hm hd hnx hny hb hpassq nd hndx hndy hndpos
              (Or.inl hnd') hfresh' hcond
            refine ⟨_, ?_, hds⟩
            simp only [processDir, ← hnx, ← hny, if_neg hout]
            rw [hcell]
            dsimp only
            rw [if_neg hwall, hnd]
            dsimp only
            rw [if_neg hmem, if_pos hcond]
            rw [hidx]
          · have hcond2 := hcond
            push_neg at hcond2
            have hds := noRelax_step hm hnx hny hnd' hcond2.1
            refine ⟨_, ?_, hds⟩
            simp only [processDir, ← hnx, ← hny, if_neg hout]
            rw [hcell]
            dsimp only
            rw [if_neg hwall, hnd]
            dsimp only
            rw [if_neg hmem, if_neg hcond]
            rw [hidx]

/-- Conclusions of the whole expansion fold. -/
structure ExpandStep (c : Ctx) (cur : Node) (st st2 : SState)
    (ds : List (Char × Int × Int)) : Prop where
  mid : MidInv c cur st2
  expanded : ∀ d ∈ ds, ExpandedAt c st2 cur d
  closedEq : st2.closed = st.closed
  closedNodesEq : ∀ i, i ∈ st.closed → st2.nodes i = st.nodes i
  gMono : ∀ i n1, st.nodes i = some n1 → ∃ n2, st2.nodes i = some n2 ∧ n2.g ≤ n1.g
  heapSub : ∀ e ∈ st.heap, e ∈ st2.heap
  heapLen : st2.heap.length ≤ st.heap.length + ds.length

theorem expandList_ok {c : Ctx} (hc : CtxOK c) {cur : Node} :
    ∀ (ds : List (Char × Int × Int)), (∀ d ∈ ds, d ∈ dirList) →
    ∀ {st : SState}, MidInv c cur st →
    ∃ st2, expandList c cur st ds = .ok st2 ∧ ExpandStep c cur st st2 ds := by
  intro ds
  induction ds with
  | nil =>
    intro _ st hm
    exact ⟨st, rfl, hm, by simp, rfl, fun i _ => rfl,
      fun i n1 h => ⟨n1, h, le_refl _⟩, fun e he => he, by simp⟩
  | cons d ds ih =>
    intro hsub st hm
    obtain ⟨st1, hpd, hds⟩ := processDir_ok hc hm (hsub d (List.mem_cons_self d ds))
    obtain ⟨st2, hel, hes⟩ := ih (fun d2 h2 => hsub d2 (List.mem_cons_of_mem d h2)) hds.mid
    refine ⟨st2, ?_, ?_⟩
    · rw [expandList, hpd]
      exact hel
    · constructor
      · exact hes.mid
      · intro d2 hd2
        rcases List.mem_cons.mp hd2 with rfl | h2
        · exact ExpandedAt_mono
            (fun i hi => by rw [hes.closedEq]; exact hi)
            hes.gMono hds.expanded
        · exact hes.expanded d2 h2
      · rw [hes.closedEq, hds.closedEq]
      · intro i hi
        have hi1 : i ∈ st1.closed := by rw [hds.closedEq]; exact hi
        rw [hes.closedNodesEq i hi1, hds.closedNodesEq i hi]
      · intro i n1 h1
        obtain ⟨n2, h2, hg2⟩ := hds.gMono i n1 h1
        obtain ⟨n3, h3, hg3⟩ := hes.gMono i n2 h2
        exact ⟨n3, h3, le_trans hg3 hg2⟩
      · exact fun e he => hes.heapSub e (hds.heapSub e he)
      · have h1 := hds.heapLen
        have h2 := hes.heapLen
        simp only [List.length_cons]
        omega

/-- The skip branch of the main loop (stale frontier entry for an already
finalized node) preserves the invariant. -/
theorem skip_preserve {c : Ctx} {st : SState} (hInv : Inv c st)
    {pr : Pair} {rest : List Pair} (hpop : popMax st.heap = some (pr, rest))
    (hmem : pr.value ∈ st.closed) : Inv c { st with heap := rest } := by
  constructor
  · exact hInv.shape
  · exact hInv.rootMem
  · exact hInv.nonRoot
  · exact hInv.closedLeast
  · exact hInv.closedExpanded
  · intro i n hn hni
    have he := hInv.frontierCur i n hn hni
    exact popMax_mem_of_ne hpop he
      (fun h => hni (by rw [show i = pr.value from congrArg Pair.value h]; exact hmem))
  · intro e he
    exact hInv.heapSane e ((popMax_perm hpop).mem_iff.mpr (List.mem_cons_of_mem _ he))
  · intro hroot
    exfalso
    obtain ⟨_, hclosed, _⟩ := hInv.rootStart hroot
    rw [hclosed] at hmem
    exact absurd hmem (Finset.not_mem_empty _)
  · exact hInv.targetFree

/-- The close-and-expand branch of the main loop: expansion succeeds,
preserves the invariant, finalizes exactly the popped node, and pushes at
most four new entries. -/
theorem expand_preserve {c : Ctx} (hc : CtxOK c) {st : SState} (hInv : Inv c st)
    {pr : Pair} {rest : List Pair} (hpop : popMax st.heap = some (pr, rest))
    (hun : pr.value ∉ st.closed) {cur : Node} (hcur : st.nodes pr.value = some cur)
    (hnt : cur.pos ≠ c.targetPos) :
    ∃ st2, expandList c cur
        { heap := rest, closed := insert pr.value st.closed, nodes := st.nodes }
        dirList = .ok st2 ∧ Inv c st2 ∧
      st2.closed = insert pr.value st.closed ∧
      st2.heap.length ≤ rest.length + 4 := by
  have hid : cur.id = pr.value := hInv.node_id hcur
  have hleast : IsLeast { k | Reach c cur.pos k } (cur.g + 1).toNat := by
    obtain ⟨n0, hn0, hl⟩ := popCorrect hc hInv hpop hun
    rw [hcur] at hn0
    cases hn0
    exact hl
  have hrootclosed : rootId c ∈ insert pr.value st.closed := by
    by_cases hr : rootId c ∈ st.closed
    · exact Finset.mem_insert_of_mem hr
    · obtain ⟨hheap, _, _⟩ := hInv.rootStart hr
      have hprmem := popMax_mem hpop
      rw [hheap] at hprmem
      simp only [List.mem_singleton] at hprmem
      rw [hprmem]
      exact Finset.mem_insert_self _ _
  have hmid : MidInv c cur
      { heap := rest, closed := insert pr.value st.closed, nodes := st.nodes } := by
    constructor
    · exact hInv.shape
    · exact hInv.rootMem
    · intro i n hn hr
      obtain ⟨h1, h2, h3, h4, pn, hpn, hpc, hpg, hpp⟩ := hInv.nonRoot i n hn hr
      exact ⟨h1, h2, h3, h4, pn, hpn, Finset.mem_insert_of_mem hpc, hpg, hpp⟩
    · intro i hi
      rcases Finset.mem_insert.mp hi with rfl | hi2
      · exact ⟨cur, hcur, hleast⟩
      · exact hInv.closedLeast i hi2
    · intro i hi hne n hn dd hdd
      have hi2 : i ∈ st.closed := by
        rcases Finset.mem_insert.mp hi with rfl | h2
        · exact absurd hid.symm hne
        · exact h2
      exact ExpandedAt_mono (fun j hj => Finset.mem_insert_of_mem hj)
        (fun j n1 h1 => ⟨n1, h1, le_refl _⟩)
        (hInv.closedExpanded i hi2 n hn dd hdd)
    · intro i n hn hni
      have hni2 : i ∉ st.closed := fun h => hni (Finset.mem_insert_of_mem h)
      have hne : i ≠ pr.value := fun h => hni (h ▸ Finset.mem_insert_self _ _)
      have he := hInv.frontierCur i n hn hni2
      exact popMax_mem_of_ne hpop he
        (fun h => hne (congrArg Pair.value h))
    · intro e he
      exact hInv.heapSane e ((popMax_perm hpop).mem_iff.mpr (List.mem_cons_of_mem _ he))
    · rw [hid]
      exact Finset.mem_insert_self _ _
    · rw [hid]
      exact hcur
    · exact hrootclosed
    · intro htgt
      rcases Finset.mem_insert.mp htgt with h | h
      · have hcurpos : cur.pos = c.targetPos := by
          have hsh := (hInv.shape pr.value cur hcur).2.2
          exact idOf_inj hc.hx hsh.1 hc.htarget (by rw [← hsh.2, h])
        exact hnt hcurpos
      · exact hInv.targetFree h
  obtain ⟨st2, hel, hes⟩ := expandList_ok hc dirList (fun d h => h) hmid
  refine ⟨st2, hel, ?_, hes.closedEq, ?_⟩
  · constructor
    · exact hes.mid.shape
    · exact hes.mid.rootMem
    · exact hes.mid.nonRoot
    · exact hes.mid.closedLeast
    · intro i hi n hn dd hdd
      by_cases hic : i = cur.id
      · subst hic
        have hn2 : n = cur := by
          have := hes.mid.curNode
          rw [hn] at this
          exact Option.some.injEq _ _ ▸ this
        subst hn2
        exact hes.expanded dd hdd
      · exact hes.mid.closedExpandedOld i hi hic n hn dd hdd
    · exact hes.mid.frontierCur
    · exact hes.mid.heapSane
    · intro hroot
      exact absurd hes.mid.rootClosed hroot
    · exact hes.mid.targetFree
  · have := hes.heapLen
    simpa [dirList] using this

/-- Path reconstruction from any table node succeeds with fuel `g + 2`,
produces exactly `g + 1` cardinal moves, and (whenever the root cell is
passable) those moves replay from the node's cell to the root through
in-bounds non-wall cells. -/
theorem reconstruct_spec {c : Ctx} (hc : CtxOK c) {st : SState} (hInv : Inv c st) :
    ∀ k i n, st.nodes i = some n → (n.g + 1).toNat = k →
    ∀ (acc : List Char) (fuel : Nat), k + 1 ≤ fuel →
    ∃ dirs, reconstruct st.nodes c.rootPos fuel n acc = some (.ok (acc ++ dirs)) ∧
      dirs.length = k ∧ dirs.all isDir = true ∧
      (passB c.map c.rootPos = true → goB c n.pos dirs = true) := by
  intro k
  induction k using Nat.strong_induction_on with
  | _ k ih =>
    intro i n hn hk acc fuel hfuel
    obtain ⟨fuel2, rfl⟩ : ∃ f2, fuel = f2 + 1 := ⟨fuel - 1, by omega⟩
    by_cases hr : i = rootId c
    · have hroot : n = rootNode c := hInv.eq_root (hr ▸ hn)
      have hg : n.g = -1 := by rw [hroot]; rfl
      have hk0 : k = 0 := by omega
      have hpos : n.pos = c.rootPos := by rw [hroot]; rfl
      refine ⟨[], ?_, by simp [hk0], by simp, ?_⟩
      · rw [reconstruct, if_pos hpos]
        simp
      · intro hpass
        rw [goB, hpos]
        have hok : okCell c.map c.x c.y c.rootPos = true :=
          okCell_true_iff.mpr ⟨hc.hroot, hpass⟩
        simp [hok]
    · obtain ⟨hpass1, hg0, hh, hdir, pn, hpn, hpc, hpg, hpp⟩ := hInv.nonRoot i n hn hr
      have hk1 : 1 ≤ k := by omega
      have hge : n.pos ≠ c.rootPos := by
        intro hEq
        have hsh := (hInv.shape i n hn).2.2.2
        exact hr (by rw [hsh, hEq]; rfl)
      have hpk : (pn.g + 1).toNat = k - 1 := by omega
      obtain ⟨dirs2, hrec, hlen2, hdirs2, hgo2⟩ :=
        ih (k - 1) (by omega) n.best_pred pn hpn hpk (acc ++ [n.direction]) fuel2
          (by omega)
      refine ⟨n.direction :: dirs2, ?_, ?_, ?_, ?_⟩
      · rw [reconstruct, if_neg hge, hpn]
        dsimp only
        rw [hrec]
        simp
      · simp only [List.length_cons, hlen2]
        omega
      · simp only [List.all_cons, hdirs2, hdir, Bool.and_self]
      · intro hpassroot
        rw [goB]
        have hok : okCell c.map c.x c.y n.pos = true :=
          okCell_true_iff.mpr ⟨(hInv.shape i n hn).2.2.1, hpass1⟩
        rw [hok, ← hpp]
        simp only [Bool.true_and]
        exact hgo2 hpassroot

/-- While the search target is reachable, the frontier is never empty. -/
theorem frontier_nonempty {c : Ctx} (hc : CtxOK c) {st : SState} (hInv : Inv c st)
    {dtgt : Nat} (hreach : Reach c c.targetPos dtgt) : st.heap ≠ [] := by
  obtain ⟨w, j, hj, hw, hwS, hbound, hcase⟩ :=
    reach_split st.closed hreach hInv.targetFree
  rcases hcase with ⟨hweq, hjeq⟩ | ⟨p, jp, hjeq, hpreach, hpS, hdd, hbw, hpassw⟩
  · have hrootfree : rootId c ∉ st.closed := by
      show idOf c.x c.rootPos ∉ st.closed
      rw [← hweq]
      exact hwS
    obtain ⟨hheap, _, _⟩ := hInv.rootStart hrootfree
    rw [hheap]
    simp
  · obtain ⟨np, hnp, _⟩ := hInv.closedLeast _ hpS
    have hpin : inBounds c.x c.y p := reach_inBounds hc hpreach
    have hnppos : np.pos = p := by
      have h1 := (hInv.shape _ np hnp).2.2.2
      exact idOf_inj hc.hx (hInv.shape _ np hnp).2.2.1 hpin h1.symm
    obtain ⟨dd, hddm, hweq⟩ := hdd
    have hrelax := hInv.closedExpanded _ hpS np hnp dd hddm w
      (by rw [hnppos]; exact hweq) hbw hpassw
    rcases hrelax with hclosedw | ⟨nw, hnw, _⟩
    · exact absurd hclosedw hwS
    · have hentry := hInv.frontierCur _ nw hnw hwS
      exact List.ne_nil_of_mem hentry

/-! ## Termination measure -/

/-- Number of grid cells, an upper bound for node ids. -/
def numCells (c : Ctx) : Nat := (c.x * c.y).toNat

/-- The loop variant: frontier length plus five times the number of
unfinalized cells. -/
def workM (c : Ctx) (st : SState) : Nat :=
  st.heap.length + 5 * (numCells c - st.closed.card)

theorem closed_subset {c : Ctx} (hc : CtxOK c) {st : SState} (hInv : Inv c st) :
    st.closed ⊆ Finset.range (numCells c) := by
  intro i hi
  obtain ⟨n, hn, _⟩ := hInv.closedLeast i hi
  obtain ⟨_, _, hb, hid⟩ := hInv.shape i n hn
  rw [Finset.mem_range, hid]
  exact idOf_lt hc.hx hb

/-! ## The main loop -/

/-- The main induction: with enough fuel, from any invariant state the loop
returns `some (.ok r)`; if the target is reachable then `r` has minimal
search-path length, consists of cardinal moves, and replays from the target
cell to the root cell; if the target is unreachable then `r` is empty. -/
theorem mainRun {c : Ctx} (hc : CtxOK c) :
    ∀ fuel st, Inv c st → workM c st < fuel →
    ∃ r, solveAux c fuel st = some (.ok r) ∧
      (∀ dtgt, Reach c c.targetPos dtgt →
        IsLeast { k | Reach c c.targetPos k } r.length ∧
        r.all isDir = true ∧
        (passB c.map c.rootPos = true → goB c c.targetPos r = true)) ∧
      ((∀ dtgt, ¬ Reach c c.targetPos dtgt) → r = []) := by
  intro fuel
  induction fuel with
  | zero =>
    intro st hInv hw
    omega
  | succ fuel ih =>
    intro st hInv hw
    rcases hpop : popMax st.heap with _ | ⟨pr, rest⟩
    · have hnil : st.heap = [] := popMax_none hpop
      refine ⟨[], ?_, ?_, fun _ => rfl⟩
      · rw [solveAux, loopStep, hpop]
      · intro dtgt hreach
        exact absurd hnil (frontier_nonempty hc hInv hreach)
    · by_cases hmem : pr.value ∈ st.closed
      · have hInv2 := skip_preserve hInv hpop hmem
        have hw2 : workM c { st with heap := rest } < fuel := by
          have hlen := popMax_length hpop
          simp only [workM] at hw ⊢
          omega
        obtain ⟨r, hr, hra, hrb⟩ := ih _ hInv2 hw2
        refine ⟨r, ?_, hra, hrb⟩
        rw [solveAux, loopStep, hpop]
        dsimp only
        rw [if_pos hmem]
        exact hr
      · obtain ⟨cur, hcur, _⟩ := hInv.heapSane pr (popMax_mem hpop)
        by_cases htgt : cur.pos = c.targetPos
        · have hleast : IsLeast { k | Reach c cur.pos k } (cur.g + 1).toNat := by
            obtain ⟨n0, hn0, hl⟩ := popCorrect hc hInv hpop hmem
            rw [hcur] at hn0
            cases hn0
            exact hl
          have hglb : -1 ≤ cur.g := hInv.g_lb hcur
          obtain ⟨dirs, hrec, hlen, hdirs, hgo⟩ := reconstruct_spec hc hInv
            ((cur.g + 1).toNat) pr.value cur hcur rfl [] ((cur.g + 2).toNat)
            (by omega)
          refine ⟨dirs, ?_, ?_, ?_⟩
          · rw [solveAux, loopStep, hpop]
            dsimp only
            rw [if_neg hmem, hcur]
            dsimp only
            rw [if_pos htgt, hrec]
            simp
          · intro dtgt hreach2
            refine ⟨?_, hdirs, ?_⟩
            · rw [hlen, ← htgt]
              exact hleast
            · intro hpassroot
              have hgo2 := hgo hpassroot
              rw [htgt] at hgo2
              exact hgo2
          · intro hunreach
            exfalso
            have hrt : Reach c cur.pos ((cur.g + 1).toNat) :=
              hInv.reachOfNode _ pr.value cur hcur rfl
            rw [htgt] at hrt
            exact hunreach _ hrt
        · obtain ⟨st2, hel, hInv2, hclosed2, hlen2⟩ :=
            expand_preserve hc hInv hpop hmem hcur htgt
          have hw2 : workM c st2 < fuel := by
            have hcard : (insert pr.value st.closed).card = st.closed.card + 1 :=
              Finset.card_insert_of_not_mem hmem
            have hsub2 := Finset.card_le_card (closed_subset hc hInv2)
            rw [Finset.card_range, hclosed2, hcard] at hsub2
            have hpoplen := popMax_length hpop
            simp only [workM] at hw ⊢
            rw [hclosed2, hcard]
            omega
          obtain ⟨r, hr, hra, hrb⟩ := ih _ hInv2 hw2
          refine ⟨r, ?_, hra, hrb⟩
          rw [solveAux, loopStep, hpop]
          dsimp only
          rw [if_neg hmem, hcur]
          dsimp only
          rw [if_neg htgt, hel]
          exact hr

/-! ## From mazes to search contexts -/

/-- The search context built by `solve_maze` for a maze. -/
def mazeCtx (m : Maze) : Ctx :=
  { map := m.map, x := (mWidth m : Int), y := (mHeight m : Int),
    rootPos := m.ending_position, targetPos := m.starting_position }

theorem mazeCtx_ok {m : Maze} (hv : ValidMaze m) : CtxOK (mazeCtx m) := by
  obtain ⟨h1, h2, h3, h4, h5⟩ := hv
  constructor
  · show (0 : Int) < (mWidth m : Int)
    exact_mod_cast h2
  · rfl
  · intro row hrow
    show ((row.length : Nat) : Int) = (mWidth m : Int)
    exact_mod_cast h3 row hrow
  · exact h5
  · exact h4

theorem solveCore_eq {m : Maze} (hv : ValidMaze m) :
    solveCore m.map m.starting_position m.ending_position =
      solveAux (mazeCtx m) (searchFuel (mazeCtx m)) (initState (mazeCtx m)) := by
  obtain ⟨r0, rows, hmap⟩ : ∃ r0 rows, m.map = r0 :: rows := by
    rcases hm2 : m.map with _ | ⟨a, b⟩
    · exfalso
      have h1 := hv.1
      rw [show mHeight m = m.map.length from rfl, hm2] at h1
      simp at h1
    · exact ⟨a, b, rfl⟩
  have hhead : m.map.head? = some r0 := by rw [hmap]; rfl
  have hW : ((r0.length : Nat) : Int) = ((mWidth m : Nat) : Int) := by
    rw [show mWidth m = m.map.headI.length from rfl, hmap]
    rfl
  rw [solveCore, hhead]
  simp only [mazeCtx, mHeight]
  rw [hW]

theorem initState_inv {c : Ctx} (hc : CtxOK c) : Inv c (initState c) := by
  have hid : (Node.from_pos c.rootPos c.x c.y).id = rootId c := rfl
  constructor
  · intro i n hn
    have hn2 : setNode (fun _ => none) (rootNode c).id (rootNode c) i = some n := hn
    by_cases hi : i = (rootNode c).id
    · subst hi
      rw [setNode_self] at hn2
      cases hn2
      exact ⟨rfl, rfl, hc.hroot, rfl⟩
    · rw [setNode_ne _ _ _ _ hi] at hn2
      cases hn2
  · show setNode (fun _ => none) (rootNode c).id (rootNode c) (rootId c) = _
    rw [show rootId c = (rootNode c).id from rfl, setNode_self]
  · intro i n hn hr
    have hn2 : setNode (fun _ => none) (rootNode c).id (rootNode c) i = some n := hn
    by_cases hi : i = (rootNode c).id
    · exact absurd (hi.trans rfl) hr
    · rw [setNode_ne _ _ _ _ hi] at hn2
      cases hn2
  · intro i hi
    exact absurd hi (Finset.not_mem_empty _)
  · intro i hi
    exact absurd hi (Finset.not_mem_empty _)
  · intro i n hn hni
    have hn2 : setNode (fun _ => none) (rootNode c).id (rootNode c) i = some n := hn
    by_cases hi : i = (rootNode c).id
    · subst hi
      rw [setNode_self] at hn2
      cases hn2
      exact List.mem_singleton.mpr rfl
    · rw [setNode_ne _ _ _ _ hi] at hn2
      cases hn2
  · intro e he
    have he2 : e ∈ [Pair.mk (rootNode c).f (rootNode c).id] := he
    rw [List.mem_singleton] at he2
    subst he2
    refine ⟨rootNode c, ?_, ?_⟩
    · show setNode (fun _ => none) (rootNode c).id (rootNode c)
        ((rootNode c).id) = some (rootNode c)
      exact setNode_self _ _ _
    · exact le_refl _
  · intro _
    refine ⟨rfl, rfl, ?_⟩
    intro i hi
    show setNode (fun _ => none) (rootNode c).id (rootNode c) i = none
    exact setNode_ne _ _ _ _
      (fun h => hi (h.trans (show (rootNode c).id = rootId c from rfl)))
  · exact Finset.not_mem_empty _

theorem initState_work {c : Ctx} : workM c (initState c) < searchFuel c := by
  show 1 + 5 * (numCells c - Finset.card ∅) < 5 * (c.x * c.y).toNat + 2
  rw [Finset.card_empty]
  show 1 + 5 * (numCells c - 0) < 5 * numCells c + 2
  omega

/-- The full characterization of `solveCore` on valid mazes. -/
theorem solveCore_run {m : Maze} (hv : ValidMaze m) :
    ∃ r, solveCore m.map m.starting_position m.ending_position = some (.ok r) ∧
      (∀ dtgt, Reach (mazeCtx m) m.starting_position dtgt →
        IsLeast { k | Reach (mazeCtx m) m.starting_position k } r.length ∧
        r.all isDir = true ∧
        (passB m.map m.ending_position = true →
          goB (mazeCtx m) m.starting_position r = true)) ∧
      ((∀ dtgt, ¬ Reach (mazeCtx m) m.starting_position dtgt) → r = []) := by
  have hc := mazeCtx_ok hv
  obtain ⟨r, hr, hra, hrb⟩ :=
    mainRun hc (searchFuel (mazeCtx m)) (initState (mazeCtx m))
      (initState_inv hc) initState_work
  rw [solveCore_eq hv]
  exact ⟨r, hr, hra, hrb⟩

/-! ## Correspondence between replayed move sequences and search paths -/

theorem stepDir_N (p : Int × Int) : stepDir p 'N' = (p.1, p.2 - 1) := by
  rw [stepDir, if_neg (by decide), if_neg (by decide), if_pos rfl]

theorem stepDir_S (p : Int × Int) : stepDir p 'S' = (p.1, p.2 + 1) := by
  rw [stepDir, if_pos rfl]

theorem stepDir_E (p : Int × Int) : stepDir p 'E' = (p.1 + 1, p.2) := by
  rw [stepDir, if_neg (by decide), if_pos rfl]

theorem stepDir_W (p : Int × Int) : stepDir p 'W' = (p.1 - 1, p.2) := by
  rw [stepDir, if_neg (by decide), if_neg (by decide), if_neg (by decide)]

theorem replayGo_eq_goB (m : Maze) : ∀ (s : List Char) (p : Int × Int),
    replayGo m p s = goB (mazeCtx m) p s := by
  intro s
  induction s with
  | nil => intro p; rfl
  | cons ch rest ih =>
    intro p
    rw [replayGo, goB, ih]
    rfl

theorem goB_reach {c : Ctx} : ∀ (s : List Char) (p : Int × Int),
    s.all isDir = true → goB c p s = true → Reach c p s.length := by
  intro s
  induction s with
  | nil =>
    intro p _ hgo
    rw [goB] at hgo
    simp only [Bool.and_eq_true, decide_eq_true_eq] at hgo
    rw [hgo.2]
    exact Reach.zero
  | cons ch rest ih =>
    intro p hall hgo
    rw [goB] at hgo
    simp only [Bool.and_eq_true] at hgo
    rw [List.all_cons, Bool.and_eq_true] at hall
    have hrec := ih (stepDir p ch) hall.2 hgo.2
    have hok := okCell_true_iff.mp hgo.1
    have hd : ∃ d ∈ dirList,
        p = ((stepDir p ch).1 + d.2.1, (stepDir p ch).2 + d.2.2) := by
      have hch := hall.1
      simp only [isDir, Bool.or_eq_true, decide_eq_true_eq] at hch
      rcases hch with ((h1 | h1) | h1) | h1 <;> subst h1
      · rw [stepDir_N]
        refine ⟨('N', (0, 1)), by simp [dirList], ?_⟩
        show p = (p.1 + 0, p.2 - 1 + 1)
        refine Prod.ext ?_ ?_ <;> omega
      · rw [stepDir_S]
        refine ⟨('S', (0, -1)), by simp [dirList], ?_⟩
        show p = (p.1 + 0, p.2 + 1 + -1)
        refine Prod.ext ?_ ?_ <;> omega
      · rw [stepDir_E]
        refine ⟨('E', (-1, 0)), by simp [dirList], ?_⟩
        show p = (p.1 + 1 + -1, p.2 + 0)
        refine Prod.ext ?_ ?_ <;> omega
      · rw [stepDir_W]
        refine ⟨('W', (1, 0)), by simp [dirList], ?_⟩
        show p = (p.1 - 1 + 1, p.2 + 0)
        refine Prod.ext ?_ ?_ <;> omega
    have hsucc := Reach.succ hrec hd hok.1 hok.2
    simpa using hsucc

theorem reach_goB {c : Ctx} (hc : CtxOK c) (hroot : passB c.map c.rootPos = true) :
    ∀ {p : Int × Int} {k : Nat}, Reach c p k →
    ∃ s : List Char, s.all isDir = true ∧ goB c p s = true ∧ s.length = k := by
  intro p k hr
  induction hr with
  | zero =>
    refine ⟨[], rfl, ?_, rfl⟩
    rw [goB]
    simp [okCell_true_iff.mpr ⟨hc.hroot, hroot⟩]
  | succ hp hd hb hpass ih =>
    rename_i p0 q n
    obtain ⟨s0, hall, hgo, hlen⟩ := ih
    obtain ⟨d, hdm, hq⟩ := hd
    refine ⟨d.1 :: s0, ?_, ?_, by simp [hlen]⟩
    · simp [List.all_cons, isDir_of_dirList hdm, hall]
    · rw [goB]
      have hok : okCell c.map c.x c.y q = true := okCell_true_iff.mpr ⟨hb, hpass⟩
      rw [hok]
      simp only [Bool.true_and]
      have hstep : stepDir q d.1 = p0 := by
        rw [hq]
        exact stepDir_back hdm p0
      rw [hstep]
      exact hgo

theorem goB_root_pass {c : Ctx} : ∀ (s : List Char) (p : Int × Int),
    goB c p s = true → passB c.map c.rootPos = true := by
  intro s
  induction s with
  | nil =>
    intro p h
    rw [goB] at h
    simp only [Bool.and_eq_true, decide_eq_true_eq] at h
    have := (okCell_true_iff.mp h.1).2
    rw [h.2] at this
    exact this
  | cons ch rest ih =>
    intro p h
    rw [goB] at h
    simp only [Bool.and_eq_true] at h
    exact ih _ h.2

theorem validSeq_reach {m : Maze} {s : List Char} (hs : ValidSeq m s) :
    Reach (mazeCtx m) m.starting_position s.length := by
  rw [show ValidSeq m s = (validSeqB m s = true) from rfl, validSeqB,
    Bool.and_eq_true] at hs
  refine goB_reach s _ hs.1 ?_
  rw [← replayGo_eq_goB]
  exact hs.2

theorem validSeq_root_pass {m : Maze} {s : List Char} (hs : ValidSeq m s) :
    passB m.map m.ending_position = true := by
  rw [show ValidSeq m s = (validSeqB m s = true) from rfl, validSeqB,
    Bool.and_eq_true] at hs
  have h2 := hs.2
  rw [replayGo_eq_goB] at h2
  exact goB_root_pass s _ h2

theorem reach_validSeq {m : Maze} (hv : ValidMaze m)
    (hroot : passB m.map m.ending_position = true) {k : Nat}
    (hr : Reach (mazeCtx m) m.starting_position k) :
    ∃ s, ValidSeq m s ∧ s.length = k := by
  obtain ⟨s, hall, hgo, hlen⟩ := reach_goB (mazeCtx_ok hv) hroot hr
  refine ⟨s, ?_, hlen⟩
  rw [show ValidSeq m s = (validSeqB m s = true) from rfl, validSeqB,
    Bool.and_eq_true]
  refine ⟨hall, ?_⟩
  rw [replayGo_eq_goB]
  exact hgo


/-! ## Raw per-step facts (no invariant needed)

Used to settle the monotonicity/freezing claims about a single loop
iteration from an arbitrary state. -/

/-- The raw conclusions of one neighbor step. -/
def RawStep (cur : Node) (st st2 : SState) : Prop :=
  st2.closed = st.closed ∧
  (∀ i n, i ∈ st.closed → st.nodes i = some n → st2.nodes i = some n) ∧
  (∀ i n, st.nodes i = some n → ∃ n2, st2.nodes i = some n2) ∧
  (∀ i n n2, st.nodes i = some n → st2.nodes i = some n2 →
    n2 = n ∨ (n2.g = cur.g + 1 ∧ (0 ≤ n.g → cur.g + 1 < n.g)))

theorem rawStep_id (cur : Node) (st : SState) : RawStep cur st st :=
  ⟨rfl, fun _ _ _ hn => hn, fun i n hn => ⟨n, hn⟩,
    fun i n n2 h1 h2 => Or.inl (by rw [h1] at h2; exact (Option.some.injEq _ _ ▸ h2).symm)⟩

theorem rawStep_set {cur : Node} {st : SState} {heap2 : List Pair} {nid : Nat}
    {v : Node}
    (hv : ∀ n, st.nodes nid = some n →
      v = n ∨ (v.g = cur.g + 1 ∧ (0 ≤ n.g → cur.g + 1 < n.g)))
    (hcv : nid ∈ st.closed → ∀ n, st.nodes nid = some n → v = n) :
    RawStep cur st
      { heap := heap2, closed := st.closed, nodes := setNode st.nodes nid v } := by
  refine ⟨rfl, ?_, ?_, ?_⟩
  · intro i n hi hn
    show setNode st.nodes nid v i = some n
    by_cases hieq : i = nid
    · subst hieq
      rw [setNode_self, hcv hi n hn]
    · rw [setNode_ne _ _ _ _ hieq]
      exact hn
  · intro i n hn
    by_cases hieq : i = nid
    · subst hieq
      exact ⟨v, setNode_self _ _ _⟩
    · exact ⟨n, by show setNode _ _ _ i = some n; rw [setNode_ne _ _ _ _ hieq]; exact hn⟩
  · intro i n n2 h1 h2
    have h2' : setNode st.nodes nid v i = some n2 := h2
    by_cases hieq : i = nid
    · subst hieq
      rw [setNode_self] at h2'
      have hn2v : n2 = v := (Option.some.injEq _ _ ▸ h2').symm
      subst hn2v
      exact hv n h1
    · rw [setNode_ne _ _ _ _ hieq] at h2'
      rw [h1] at h2'
      exact Or.inl (Option.some.injEq _ _ ▸ h2').symm

theorem processDir_raw {c : Ctx} {cur : Node} {st st2 : SState}
    {d : Char × Int × Int} (h : processDir c cur st d = .ok st2) :
    RawStep cur st st2 := by
  set nx := cur.pos.1 + d.2.1 with hnx
  set ny := cur.pos.2 + d.2.2 with hny
  by_cases hout : nx ≥ c.x ∨ nx < 0 ∨ ny ≥ c.y ∨ ny < 0
  · simp only [processDir, ← hnx, ← hny, if_pos hout, Except.ok.injEq] at h
    subst h
    exact rawStep_id cur st
  · simp only [processDir, ← hnx, ← hny, if_neg hout] at h
    rcases hcell : gridGet c.map nx ny with _ | cell
    · rw [hcell] at h
      cases h
    · rw [hcell] at h
      dsimp only at h
      by_cases hwall : cell = 'X'
      · rw [if_pos hwall] at h
        simp only [Except.ok.injEq] at h
        subst h
        exact rawStep_id cur st
      · rw [if_neg hwall] at h
        rcases hnd : st.nodes ((nx + ny * c.x).toNat) with _ | nd
        all_goals rw [hnd] at h
        all_goals dsimp only at h
        · -- fresh node
          by_cases hmem : ((nx + ny * c.x).toNat) ∈ st.closed
          · rw [if_pos hmem] at h
            simp only [Except.ok.injEq] at h
            subst h
            exact rawStep_set
              (fun n hn => by rw [hnd] at hn; cases hn)
              (fun _ n hn => by rw [hnd] at hn; cases hn)
          · rw [if_neg hmem,
              if_pos (Or.inr (show (Node.new (Int.ofNat ((nx + ny * c.x).toNat))
                c.x c.y).g < 0 from show (-1 : Int) < 0 by norm_num))] at h
            simp only [Except.ok.injEq] at h
            subst h
            exact rawStep_set
              (fun n hn => by rw [hnd] at hn; cases hn)
              (fun _ n hn => by rw [hnd] at hn; cases hn)
        · -- existing node
          by_cases hmem : ((nx + ny * c.x).toNat) ∈ st.closed
          · rw [if_pos hmem] at h
            simp only [Except.ok.injEq] at h
            subst h
            refine rawStep_set (fun n hn => ?_) (fun _ n hn => ?_)
            · rw [hnd] at hn
              exact Or.inl (Option.some.injEq _ _ ▸ hn)
            · rw [hnd] at hn
              exact Option.some.injEq _ _ ▸ hn
          · rw [if_neg hmem] at h
            by_cases hcond : nd.g > cur.g + 1 ∨ nd.g < 0
            · rw [if_pos hcond] at h
              simp only [Except.ok.injEq] at h
              subst h
              refine rawStep_set (fun n hn => ?_) (fun hmem2 => absurd hmem2 hmem)
              rw [hnd] at hn
              have hnd2 : nd = n := Option.some.injEq _ _ ▸ hn
              subst hnd2
              refine Or.inr ⟨rfl, ?_⟩
              intro hg
              rcases hcond with hc | hc
              · exact hc
              · omega
            · rw [if_neg hcond] at h
              simp only [Except.ok.injEq] at h
              subst h
              refine rawStep_set (fun n hn => ?_) (fun _ n hn => ?_)
              · rw [hnd] at hn
                exact Or.inl (Option.some.injEq _ _ ▸ hn)
              · rw [hnd] at hn
                exact Option.some.injEq _ _ ▸ hn

theorem rawStep_trans {cur : Node} {st1 st2 st3 : SState}
    (h1 : RawStep cur st1 st2) (h2 : RawStep cur st2 st3) :
    RawStep cur st1 st3 := by
  obtain ⟨c1, p1, e1, g1⟩ := h1
  obtain ⟨c2, p2, e2, g2⟩ := h2
  refine ⟨c2.trans c1, ?_, ?_, ?_⟩
  · intro i n hi hn
    exact p2 i n (by rw [c1]; exact hi) (p1 i n hi hn)
  · intro i n hn
    obtain ⟨n1, hn1⟩ := e1 i n hn
    exact e2 i n1 hn1
  · intro i n n3 hn hn3
    obtain ⟨n1, hn1⟩ := e1 i n hn
    rcases g1 i n n1 hn hn1 with rfl | ⟨hg1, hp1⟩
    · exact g2 i n1 n3 hn1 hn3
    · rcases g2 i n1 n3 hn1 hn3 with rfl | ⟨hg2, _⟩
      · exact Or.inr ⟨hg1, hp1⟩
      · exact Or.inr ⟨hg2, hp1⟩

theorem expandList_raw {c : Ctx} {cur : Node} :
    ∀ (ds : List (Char × Int × Int)) {st st2 : SState},
    expandList c cur st ds = .ok st2 → RawStep cur st st2 := by
  intro ds
  induction ds with
  | nil =>
    intro st st2 h
    rw [expandList] at h
    simp only [Except.ok.injEq] at h
    subst h
    exact rawStep_id cur st
  | cons d2 ds ih =>
    intro st st2 h
    rw [expandList] at h
    rcases hpd : processDir c cur st d2 with e | st1
    all_goals rw [hpd] at h
    · cases h
    · exact rawStep_trans (processDir_raw hpd) (ih h)

/-- C6: Within one invocation of solve_maze, each node's g value, once set
non-negative, only ever decreases (strictly when it changes) across a loop
iteration; once a node id is in the closed set, its node record (g,
best_pred, direction) is never modified again and the id stays closed; and
popping a frontier entry whose id is already closed only removes that entry
(no re-expansion: nodes and closed set unchanged). -/
theorem C6_g_decreases_closed_frozen (c : Ctx) (st st2 : SState)
    (hstep : stepNext c st = some st2) :
    (∀ i n, i ∈ st.closed → st.nodes i = some n →
      st2.nodes i = some n ∧ i ∈ st2.closed) ∧
    (∀ i n n2, st.nodes i = some n → st2.nodes i = some n2 → 0 ≤ n.g →
      n2.g ≤ n.g ∧ (n2.g ≠ n.g → n2.g < n.g)) ∧
    (∀ pr rest, popMax st.heap = some (pr, rest) → pr.value ∈ st.closed →
      st2.nodes = st.nodes ∧ st2.closed = st.closed ∧ st2.heap = rest) := by
  rw [stepNext] at hstep
  rcases hpop : popMax st.heap with _ | ⟨pr, rest⟩
  · rw [loopStep, hpop] at hstep
    cases hstep
  · rw [loopStep, hpop] at hstep
    dsimp only at hstep
    by_cases hmem : pr.value ∈ st.closed
    · rw [if_pos hmem] at hstep
      dsimp only at hstep
      simp only [Option.some.injEq] at hstep
      subst hstep
      refine ⟨fun i n hi hn => ⟨hn, hi⟩, ?_, ?_⟩
      · intro i n n2 h1 h2 hg
        have h12 : n2 = n := by
          rw [h1] at h2
          exact (Option.some.injEq _ _ ▸ h2).symm
        subst h12
        exact ⟨le_refl _, fun hne => absurd rfl hne⟩
      · intro pr2 rest2 hpop2 _
        simp only [Option.some.injEq, Prod.mk.injEq] at hpop2
        exact ⟨rfl, rfl, hpop2.2⟩
    · rw [if_neg hmem] at hstep
      rcases hcur : st.nodes pr.value with _ | cur
      all_goals rw [hcur] at hstep
      all_goals dsimp only at hstep
      · cases hstep
      · by_cases htgt : cur.pos = c.targetPos
        · rw [if_pos htgt] at hstep
          cases hstep
        · rw [if_neg htgt] at hstep
          rcases hel : expandList c cur
              { heap := rest, closed := insert pr.value st.closed,
                nodes := st.nodes } dirList with e | st3
          all_goals rw [hel] at hstep
          · cases hstep
          · dsimp only at hstep
            simp only [Option.some.injEq] at hstep
            subst hstep
            obtain ⟨hc3, hp3, he3, hg3⟩ := expandList_raw dirList hel
            refine ⟨?_, ?_, ?_⟩
            · intro i n hi hn
              refine ⟨hp3 i n (Finset.mem_insert_of_mem hi) hn, ?_⟩
              rw [hc3]
              exact Finset.mem_insert_of_mem hi
            · intro i n n2 h1 h2 hg
              rcases hg3 i n n2 h1 h2 with rfl | ⟨hgu, hlt⟩
              · exact ⟨le_refl _, fun hne => absurd rfl hne⟩
              · have := hlt hg
                constructor
                · omega
                · intro _
                  omega
            · intro pr2 rest2 hpop2 hmem2
              simp only [Option.some.injEq, Prod.mk.injEq] at hpop2
              exact absurd (hpop2.1 ▸ hmem2) hmem

/-! ## Concrete instances used by witnesses and counterexamples -/

def mazeW33 : Maze :=
  { name := "open3x3", maze_path := "/w33",
    starting_position := (0, 0), ending_position := (2, 2),
    map := [[' ', ' ', ' '], [' ', ' ', ' '], [' ', ' ', ' ']] }

def mazeWalledGoal : Maze :=
  { name := "walled-goal", maze_path := "/cex",
    starting_position := (0, 0), ending_position := (1, 0),
    map := [[' ', 'X']] }

def mazeSame : Maze :=
  { name := "start-eq-goal", maze_path := "/same",
    starting_position := (1, 1), ending_position := (1, 1),
    map := [[' ', ' '], [' ', ' ']] }

def mazeRenamed : Maze :=
  { name := "renamed", maze_path := "/other",
    starting_position := (0, 0), ending_position := (2, 2),
    map := [[' ', ' ', ' '], [' ', ' ', ' '], [' ', ' ', ' ']] }

/-! ## The claims -/

/-- C1: For every maze whose grid is non-empty and rectangular and whose
start and goal coordinates are in bounds, if at least one sequence of
cardinal moves through passable (non-'X') cells leads from start to goal,
then `solve_maze` returns a sequence whose length equals the minimum length
over all such sequences. -/
theorem C1_solve_maze_shortest (m : Maze) (hv : ValidMaze m)
    (hreach : ∃ s, ValidSeq m s) :
    IsLeast { n | ∃ s, ValidSeq m s ∧ s.length = n } (solve_maze m).length := by
  obtain ⟨s0, hs0⟩ := hreach
  have hroot := validSeq_root_pass hs0
  have hr0 := validSeq_reach hs0
  obtain ⟨r, hr, hra, _⟩ := solveCore_run hv
  have hsolve : solve_maze m = r := by rw [solve_maze, hr]
  obtain ⟨hleast, hall, hgoimp⟩ := hra _ hr0
  rw [hsolve]
  constructor
  · refine ⟨r, ?_, rfl⟩
    rw [show ValidSeq m r = (validSeqB m r = true) from rfl, validSeqB,
      Bool.and_eq_true]
    exact ⟨hall, by rw [replayGo_eq_goB]; exact hgoimp hroot⟩
  · intro n hn
    obtain ⟨s, hsv, hslen⟩ := hn
    have hrs := validSeq_reach hsv
    rw [hslen] at hrs
    exact hleast.2 hrs

theorem C1_witness :
    ValidMaze mazeW33 ∧ ValidSeq mazeW33 ['E', 'E', 'S', 'S'] ∧
    IsLeast { n | ∃ s, ValidSeq mazeW33 s ∧ s.length = n }
      (solve_maze mazeW33).length :=
  ⟨by decide, by decide,
    C1_solve_maze_shortest mazeW33 (by decide) ⟨['E', 'E', 'S', 'S'], by decide⟩⟩

/-- C2: For every valid maze in which the goal is reachable from the start,
every element of the sequence returned by `solve_maze` is one of 'N', 'S',
'E', 'W', and replaying the moves from the start coordinate under the
replay convention of `show_maze_with_tour` ('S' is y+1, 'E' is x+1, 'N' is
y-1, 'W' is x-1, embodied in `stepDir`/`replayGo`) visits only in-bounds
non-wall cells and ends exactly at the goal coordinate. -/
theorem C2_solve_maze_replay_valid (m : Maze) (hv : ValidMaze m)
    (hreach : ∃ s, ValidSeq m s) : ValidSeq m (solve_maze m) := by
  obtain ⟨s0, hs0⟩ := hreach
  have hroot := validSeq_root_pass hs0
  have hr0 := validSeq_reach hs0
  obtain ⟨r, hr, hra, _⟩ := solveCore_run hv
  have hsolve : solve_maze m = r := by rw [solve_maze, hr]
  obtain ⟨_, hall, hgoimp⟩ := hra _ hr0
  rw [hsolve]
  rw [show ValidSeq m r = (validSeqB m r = true) from rfl, validSeqB,
    Bool.and_eq_true]
  exact ⟨hall, by rw [replayGo_eq_goB]; exact hgoimp hroot⟩

theorem C2_witness :
    ValidMaze mazeW33 ∧ ValidSeq mazeW33 ['E', 'E', 'S', 'S'] ∧
    ValidSeq mazeW33 (solve_maze mazeW33) :=
  ⟨by decide, by decide,
    C2_solve_maze_replay_valid mazeW33 (by decide) ⟨['E', 'E', 'S', 'S'], by decide⟩⟩

/-- C3 counterexample: on the valid maze `[[' ', 'X']]` with start (0,0)
and goal (1,0), the goal cell is a wall, so no sequence of cardinal moves
through passable cells connects start to goal — yet `solve_maze` returns
the nonempty sequence ['E'] (the backward search starts at the goal cell
without checking its passability).  The claimed equivalence therefore fails
at this input. -/
theorem C3_counterexample :
    ValidMaze mazeWalledGoal ∧
    mazeWalledGoal.starting_position ≠ mazeWalledGoal.ending_position ∧
    ¬ (solve_maze mazeWalledGoal = [] ↔ ¬ ∃ s, ValidSeq mazeWalledGoal s) := by
  refine ⟨by decide, by decide, ?_⟩
  intro h
  have hne : solve_maze mazeWalledGoal ≠ [] := by decide
  have hnoseq : ¬ ∃ s, ValidSeq mazeWalledGoal s := by
    rintro ⟨s, hs⟩
    have hpassgoal := validSeq_root_pass hs
    exact absurd hpassgoal (by decide)
  exact hne (h.mpr hnoseq)

/-- C3 (amended): For every valid maze whose start and goal differ and
whose goal cell is itself passable, `solve_maze` returns the empty sequence
if and only if no sequence of cardinal moves through passable in-bounds
cells connects start to goal; and the search signals this by its return
value only — it reaches no panic branch and no fuel exhaustion (the run
ends in `some (.ok _)`).  (The passable-goal hypothesis is forced by the
counterexample: the backward search never checks the goal cell, so a maze
whose goal is a wall can yield a nonempty sequence.) -/
theorem C3_empty_iff_unreachable (m : Maze) (hv : ValidMaze m)
    (hne : m.starting_position ≠ m.ending_position)
    (hgoal : passB m.map m.ending_position = true) :
    (solve_maze m = [] ↔ ¬ ∃ s, ValidSeq m s) ∧
    ∃ l, solveCore m.map m.starting_position m.ending_position =
      some (.ok l) := by
  obtain ⟨r, hr, hra, hrb⟩ := solveCore_run hv
  have hsolve : solve_maze m = r := by rw [solve_maze, hr]
  refine ⟨⟨?_, ?_⟩, r, hr⟩
  · intro hempty hex
    obtain ⟨s, hs⟩ := hex
    have hreach := validSeq_reach hs
    obtain ⟨hleast, _, _⟩ := hra _ hreach
    rw [hsolve] at hempty
    have hr0 : Reach (mazeCtx m) m.starting_position 0 := by
      have h1 := hleast.1
      rw [hempty] at h1
      exact h1
    have := reach_zero hr0
    exact hne this
  · intro hnone
    have hunreach : ∀ d, ¬ Reach (mazeCtx m) m.starting_position d := by
      intro d hd
      obtain ⟨s, hsv, _⟩ := reach_validSeq hv hgoal hd
      exact hnone ⟨s, hsv⟩
    rw [hsolve]
    exact hrb hunreach

theorem C3_witness :
    ValidMaze mazeW33 ∧
    mazeW33.starting_position ≠ mazeW33.ending_position ∧
    passB mazeW33.map mazeW33.ending_position = true ∧
    ((solve_maze mazeW33 = [] ↔ ¬ ∃ s, ValidSeq mazeW33 s) ∧
      ∃ l, solveCore mazeW33.map mazeW33.starting_position
        mazeW33.ending_position = some (.ok l)) :=
  ⟨by decide, by decide, by decide,
    C3_empty_iff_unreachable mazeW33 (by decide) (by decide) (by decide)⟩

/-- C4 counterexample: the claim says that at initialization the root
SearchNode is created with `g = 0` and `h` equal to the heuristic value of
the root position, and pushed with (min-)priority `g + h`, i.e. heap key
`-(g + h)`.  On the open 3×3 maze the heuristic of the root is 4, so the
claim predicts a root record with `g = 0, h = 4` and the frontier
`[Pair.mk (-(0 + 4)) rootId]`; the code actually creates the root via
`Node::from_pos` with sentinel `g = -1, h = -1` and pushes key 2. -/
theorem C4_counterexample :
    ValidMaze mazeW33 ∧
    ¬ ((∃ n, (initState (mazeCtx mazeW33)).nodes (rootId (mazeCtx mazeW33))
          = some n ∧ n.g = 0 ∧
          n.h = calculate_shortest_possible mazeW33.starting_position
            mazeW33.ending_position) ∧
      (initState (mazeCtx mazeW33)).heap =
        [Pair.mk (-(0 + calculate_shortest_possible mazeW33.starting_position
          mazeW33.ending_position)) (rootId (mazeCtx mazeW33))]) := by
  refine ⟨by decide, ?_⟩
  rintro ⟨⟨n, hn, hg, _⟩, -⟩
  have hroot : (initState (mazeCtx mazeW33)).nodes (rootId (mazeCtx mazeW33))
      = some (rootNode (mazeCtx mazeW33)) := by decide
  rw [hroot] at hn
  have hne : n = rootNode (mazeCtx mazeW33) := (Option.some.injEq _ _ ▸ hn).symm
  rw [hne] at hg
  exact absurd hg (by decide)

/-- C4 (amended): At initialization, `solve_maze` creates the root
SearchNode via `Node::from_pos`, i.e. with the sentinel values `g = -1` and
`h = -1` (not `g = 0` and the computed heuristic), and pushes it onto the
frontier with the key `Node::f = -(g + h) = 2`; since every later entry
carries a nonpositive key, the root is still dequeued first, and the
uniform `-1` shift leaves the search's comparisons unchanged. -/
theorem C4_init_sentinel (c : Ctx) :
    (initState c).nodes (rootId c) = some (rootNode c) ∧
    (rootNode c).g = -1 ∧ (rootNode c).h = -1 ∧
    (initState c).heap = [Pair.mk (rootNode c).f (rootId c)] ∧
    (rootNode c).f = -((rootNode c).g + (rootNode c).h) ∧
    (rootNode c).f = 2 := by
  refine ⟨?_, rfl, rfl, rfl, rfl, rfl⟩
  show setNode (fun _ => none) (rootNode c).id (rootNode c) (rootId c)
    = some (rootNode c)
  rw [show rootId c = (rootNode c).id from rfl, setNode_self]

/-- C5: `solve_maze` is a pure, deterministic function of its input maze:
it reads only the grid, the starting position and the ending position, so
any two invocations on equal grids, start coordinates and goal coordinates
return identical move sequences (the `name` and `maze_path` fields are
irrelevant, and there are no side effects — the embedding is a pure
function). -/
theorem C5_solve_maze_deterministic (m1 m2 : Maze) (hmap : m1.map = m2.map)
    (hs : m1.starting_position = m2.starting_position)
    (he : m1.ending_position = m2.ending_position) :
    solve_maze m1 = solve_maze m2 := by
  rw [solve_maze, solve_maze, hmap, hs, he]

theorem C5_witness :
    mazeW33.map = mazeRenamed.map ∧
    mazeW33.starting_position = mazeRenamed.starting_position ∧
    mazeW33.ending_position = mazeRenamed.ending_position ∧
    mazeW33.name ≠ mazeRenamed.name ∧
    solve_maze mazeW33 = solve_maze mazeRenamed :=
  ⟨rfl, rfl, rfl, by decide, C5_solve_maze_deterministic mazeW33 mazeRenamed rfl rfl rfl⟩

/-- A concrete search context and two consecutive loop states on the open
3×3 maze, used to witness the per-iteration claim. -/
def c6ctx : Ctx := mazeCtx mazeW33

/-- The state after the first loop iteration (the root is closed). -/
def c6st : SState :=
  (stepNext c6ctx (initState c6ctx)).getD (initState c6ctx)

/-- The state after the second loop iteration. -/
def c6st2 : SState :=
  (stepNext c6ctx c6st).getD (initState c6ctx)

theorem C6_witness :
    (∀ i n, i ∈ c6st.closed → c6st.nodes i = some n →
      c6st2.nodes i = some n ∧ i ∈ c6st2.closed) ∧
    (∀ i n n2, c6st.nodes i = some n → c6st2.nodes i = some n2 → 0 ≤ n.g →
      n2.g ≤ n.g ∧ (n2.g ≠ n.g → n2.g < n.g)) ∧
    (∀ pr rest, popMax c6st.heap = some (pr, rest) → pr.value ∈ c6st.closed →
      c6st2.nodes = c6st.nodes ∧ c6st2.closed = c6st.closed ∧
      c6st2.heap = rest) :=
  C6_g_decreases_closed_frozen c6ctx c6st c6st2 rfl

/-- C7: Whenever the search loop pops an entry from the frontier, the popped
entry has the largest key — hence, keys being set to `Node::f = -(g + h)`,
the smallest `g + h` — among all entries currently in the frontier: the
max-heap of `Pair` values ordered by key realizes min-priority dequeuing on
`g + h`. -/
theorem C7_pop_min_priority (l : List Pair) (pr : Pair) (rest : List Pair)
    (hpop : popMax l = some (pr, rest)) :
    (∀ q ∈ l, q.key ≤ pr.key) ∧ (∀ n : Node, Node.f n = -(n.g + n.h)) :=
  ⟨popMax_le hpop, fun _ => rfl⟩

theorem C7_witness :
    popMax [Pair.mk (-3) 0, Pair.mk (-1) 1] =
      some (Pair.mk (-1) 1, [Pair.mk (-3) 0]) ∧
    ((∀ q ∈ [Pair.mk (-3) 0, Pair.mk (-1) 1], q.key ≤ (Pair.mk (-1) 1).key) ∧
      (∀ n : Node, Node.f n = -(n.g + n.h))) :=
  ⟨by decide, C7_pop_min_priority [Pair.mk (-3) 0, Pair.mk (-1) 1]
    (Pair.mk (-1) 1) [Pair.mk (-3) 0] (by decide)⟩

/-- C8: For every valid maze whose starting position equals its ending
position, `solve_maze` returns the empty sequence. -/
theorem C8_start_eq_goal_empty (m : Maze) (hv : ValidMaze m)
    (heq : m.starting_position = m.ending_position) : solve_maze m = [] := by
  obtain ⟨r, hr, hra, _⟩ := solveCore_run hv
  have htr : Reach (mazeCtx m) m.starting_position 0 := by
    rw [show m.starting_position = (mazeCtx m).rootPos from heq]
    exact Reach.zero
  obtain ⟨hleast, _, _⟩ := hra 0 htr
  have hle : r.length ≤ 0 := hleast.2 htr
  have hrnil : r = [] := List.eq_nil_of_length_eq_zero (by omega)
  rw [solve_maze, hr, hrnil]

theorem C8_witness : ValidMaze mazeSame ∧
    mazeSame.starting_position = mazeSame.ending_position ∧
    solve_maze mazeSame = [] :=
  ⟨by decide, by decide, C8_start_eq_goal_empty mazeSame (by decide) (by decide)⟩

/-- C9: For every valid maze, `solve_maze` terminates: with the provably
sufficient fuel `searchFuel` the embedded main loop never exhausts its fuel
(each node id enters the closed set at most once and the variant `workM`
strictly decreases), and path reconstruction reaches the search root after
finitely many predecessor steps — the run produces a result. -/
theorem C9_terminates (m : Maze) (hv : ValidMaze m) :
    (solveCore m.map m.starting_position m.ending_position).isSome = true := by
  obtain ⟨r, hr, _, _⟩ := solveCore_run hv
  rw [hr]
  rfl

theorem C9_witness :
    ValidMaze mazeW33 ∧
    (solveCore mazeW33.map mazeW33.starting_position
      mazeW33.ending_position).isSome = true :=
  ⟨by decide, C9_terminates mazeW33 (by decide)⟩

/-- C10: For every maze satisfying the preconditions, every container
access inside `solve_maze` succeeds: the run never reaches a
lookup-failure (panic) branch — grid cells are indexed only after the
bounds check, every popped node id is present in the node table, and the
predecessor chain stays inside the table — so the embedded run ends in
`some (.ok _)`, never in the `error` outcome that models a panic. -/
theorem C10_no_lookup_failure (m : Maze) (hv : ValidMaze m) :
    ∃ l, solveCore m.map m.starting_position m.ending_position =
      some (Except.ok l) := by
  obtain ⟨r, hr, _, _⟩ := solveCore_run hv
  exact ⟨r, hr⟩

theorem C10_witness :
    ValidMaze mazeWalledGoal ∧
    ∃ l, solveCore mazeWalledGoal.map mazeWalledGoal.starting_position
      mazeWalledGoal.ending_position = some (Except.ok l) :=
  ⟨by decide, C10_no_lookup_failure mazeWalledGoal (by decide)⟩

end Mazebot
